import Mathlib

/-!
Shallow embedding of the alternation-trading lower-bound search
(buildLinearProgram.py, findBestProof.py, and where a claim refers to it the
legacy duplicate automated-alternating-lbs.py), together with theorems that
settle the frozen claims about it.

Conventions used throughout:
* Python lists of ints become `List ℕ`; an annotation is such a list over
  the alphabet 0 (SLOWDOWN), 1 (SPEEDUP2), 2 (SPEEDUP3).
* Python floats (the exponent c and the scaling alpha) become `ℚ`.
* pulp's LP objects become explicit data: `Var`, `Expr`, `Cstr` below; the
  external LP solver is abstracted where a function of the source merely
  consumes its feasible/infeasible verdict.
-/

namespace AltLB

/-- An LP variable of the builder: the dictionaries `a`, `b` (indexed by the
pair (line, clause)) and `x` (indexed by line) of buildLinearProgram.__init__. -/
inductive Var where
  | a (i j : ℕ)
  | b (i j : ℕ)
  | x (i : ℕ)
deriving DecidableEq

/-- A linear expression as the builder writes one: a constant, a variable,
a difference, or a scalar multiple. -/
inductive Expr where
  | const (q : ℚ)
  | var (v : Var)
  | sub (e₁ e₂ : Expr)
  | smul (q : ℚ) (e : Expr)
deriving DecidableEq

/-- Value of an expression under an assignment of rationals to variables. -/
def Expr.eval (σ : Var → ℚ) : Expr → ℚ
  | .const q => q
  | .var v => σ v
  | .sub e₁ e₂ => e₁.eval σ - e₂.eval σ
  | .smul q e => q * e.eval σ

/-- A single LP constraint: an inequality `lhs >= rhs` or an equality
`lhs == rhs`, exactly the two shapes the builder emits. -/
inductive Cstr where
  | ge (lhs rhs : Expr)
  | eq (lhs rhs : Expr)
deriving DecidableEq

/-- Satisfaction of one constraint by an assignment. -/
def Cstr.holds (σ : Var → ℚ) : Cstr → Prop
  | .ge l r => r.eval σ ≤ l.eval σ
  | .eq l r => l.eval σ = r.eval σ

instance (σ : Var → ℚ) : DecidablePred (Cstr.holds σ) := fun c =>
  match c with
  | .ge l r => inferInstanceAs (Decidable (r.eval σ ≤ l.eval σ))
  | .eq l r => inferInstanceAs (Decidable (l.eval σ = r.eval σ))

/-- Shorthand for the expression `a[(i,j)]`. -/
def av (i j : ℕ) : Expr := .var (.a i j)

/-- Shorthand for the expression `b[(i,j)]`. -/
def bv (i j : ℕ) : Expr := .var (.b i j)

/-- Shorthand for the expression `x[i]`. -/
def xv (i : ℕ) : Expr := .var (.x i)

/-- Translation of buildLinearProgram.maxNumClauses (buildLinearProgram.py,
lines 46 to 66).  In that file the statement `m = max(m,j)` stands after the
for-loop (it is not inside the else-branch), so with `m = 0` before the loop
the function returns `max 0 j + 2` where `j` is the final running value, not
the running maximum.  A slowdown entry adds -1 to `j`, any other entry adds
its own value (1 for SPEEDUP2, 2 for SPEEDUP3). -/
def maxNumClauses (ann : List ℕ) : ℕ :=
  (max 0 (ann.foldl (fun j op => if op = 0 then j - 1 else j + (op : ℤ)) 0)).toNat + 2

/-- Translation of the legacy maxNumClauses (automated-alternating-lbs.py,
lines 58 to 78): there every speedup adds exactly 1 to `j` and `m = max(m,j)`
is executed inside the else-branch, so the running maximum is tracked. -/
def maxNumClausesLegacy (ann : List ℕ) : ℕ :=
  (ann.foldl
    (fun mj op => if op = 0 then (mj.1, mj.2 - 1) else (max mj.1 (mj.2 + 1), mj.2 + 1))
    ((0 : ℤ), (0 : ℤ))).1.toNat + 2

/-- The pair of attributes (rand_speedup, random) as buildLinearProgram.__init__
leaves them: `self.rand_speedup = False` always, and the branch testing
`annotation[0] == 2` assigns `self.random = True` (an attribute nothing ever
reads), not `self.rand_speedup`. -/
def initFlags (ann : List ℕ) : Bool × Bool :=
  (false, decide (ann.getD 0 0 = 2))

/-- The value of `self.rand_speedup` after `__init__`: the first component of
`initFlags`. -/
def randSpeedupFlag (ann : List ℕ) : Bool := (initFlags ann).1

/-- Translation of buildLinearProgram.addInitialConstraints
(buildLinearProgram.py, lines 160 to 205): boundary constraints on lines 0 and
n-1, the lower-bound witness constraint, and the first-speedup constraints on
line 1, whose index-3 pair is gated on `self.rand_speedup`.
Python `range(s, e)` is `List.range' s (e - s)`. -/
def addInitialConstraints (n m : ℕ) (rand : Bool) : List Cstr :=
  [.ge (av 0 0) (.const 1), .eq (bv 0 0) (.const 1),
   .ge (av (n-1) 0) (.const 1), .eq (bv (n-1) 0) (.const 1)]
  ++ (List.range' 1 (m-1)).flatMap (fun j =>
      [.eq (av 0 j) (.const 0), .eq (bv 0 j) (.const 0),
       .eq (av (n-1) j) (.const 0), .eq (bv (n-1) j) (.const 0)])
  ++ [.ge (av 0 0) (av (n-1) 0),
      .eq (av 1 0) (.sub (av 0 0) (xv 1)), .eq (bv 1 0) (.const 1),
      .eq (av 1 1) (.const 0), .ge (bv 1 1) (xv 1), .ge (bv 1 1) (.const 1),
      .eq (av 1 2) (xv 1), .ge (bv 1 2) (.const 1), .ge (bv 1 2) (xv 1)]
  ++ (if rand then [.eq (av 1 3) (.const 0), .eq (bv 1 3) (.const 1)]
      else [.eq (av 1 3) (.const 0), .eq (bv 1 3) (.const 0)])
  ++ (List.range' 4 (m-4)).flatMap (fun j =>
      [.eq (av 1 j) (.const 0), .eq (bv 1 j) (.const 0)])

/-- Translation of buildLinearProgram.addSpeedupConstraints
(buildLinearProgram.py, lines 208 to 225). -/
def addSpeedupConstraints (m i : ℕ) : List Cstr :=
  [.ge (av i 0) (.const 1), .ge (av i 0) (.sub (av (i-1) 0) (xv i)),
   .ge (bv i 0) (bv (i-1) 0), .eq (av i 1) (.const 0),
   .ge (bv i 1) (xv i), .ge (bv i 1) (bv (i-1) 0),
   .ge (av i 2) (av (i-1) 1), .ge (av i 2) (xv i), .ge (bv i 2) (bv (i-1) 1)]
  ++ (List.range' 3 (m-3)).flatMap (fun j =>
      [.eq (av i j) (av (i-1) (j-1)), .eq (bv i j) (bv (i-1) (j-1))])

/-- Translation of buildLinearProgram.addSlowdownConstraints
(buildLinearProgram.py, lines 231 to 247): `self.c*self.alpha` scales the
first bound only, plain `self.c` the next three; then `a[i,0] >= 1`, the
`b`-shift equality, the left-shift equalities for `1 <= k <= m-2`, and the
zeroing of index m-1. -/
def addSlowdownConstraints (c al : ℚ) (m i : ℕ) : List Cstr :=
  [.ge (av i 0) (.smul (c * al) (av (i-1) 0)), .ge (av i 0) (.smul c (av (i-1) 1)),
   .ge (av i 0) (.smul c (bv (i-1) 0)), .ge (av i 0) (.smul c (bv (i-1) 1)),
   .ge (av i 0) (.const 1), .eq (bv i 0) (bv (i-1) 1)]
  ++ (List.range' 1 (m-1-1)).flatMap (fun j =>
      [.eq (av i j) (av (i-1) (j+1)), .eq (bv i j) (bv (i-1) (j+1))])
  ++ [.eq (av i (m-1)) (.const 0), .eq (bv i (m-1)) (.const 0)]

/-- Translation of buildLinearProgram.addAnnotationConstraints
(buildLinearProgram.py, lines 76 to 93): the initial constraints, then for
each entry of `annotation[1:]` (Python `enumerate` index `idx`, proof line
`i = idx + 2`) the slowdown constraints when the entry is 0 and the speedup
constraints otherwise. -/
def addAnnotationConstraints (c al : ℚ) (n m : ℕ) (rand : Bool) (ann : List ℕ) :
    List Cstr :=
  addInitialConstraints n m rand
  ++ (ann.drop 1).enum.flatMap (fun p =>
      if p.2 = 0 then addSlowdownConstraints c al m (p.1 + 2)
      else addSpeedupConstraints m (p.1 + 2))

/-- The full constraint list of the LP instance buildLinearProgram builds for
a given annotation, exponent and alpha: width `m` and flag `rand_speedup` as
`__init__` computes them, `n = len(annotation) + 1`. -/
def buildConstraints (ann : List ℕ) (c al : ℚ) : List Cstr :=
  addAnnotationConstraints c al (ann.length + 1) (maxNumClauses ann)
    (randSpeedupFlag ann) ann

/-- The variables buildLinearProgram.__init__ creates, with the lower bound
each creation passes to pulp: the `a` and `b` dictionaries are created by
`pulp.LpVariable.dicts` with no bound argument (so no lower bound), the `x`
dictionary with lower bound 0. -/
def lpVariables (n m : ℕ) : List (Var × Option ℚ) :=
  ((List.range n).flatMap fun i =>
    (List.range m).map fun j => (Var.a i j, (none : Option ℚ)))
  ++ ((List.range n).flatMap fun i =>
    (List.range m).map fun j => (Var.b i j, (none : Option ℚ)))
  ++ ((List.range n).map fun i => (Var.x i, (some 0 : Option ℚ)))

/-- The variable list of the instance built for an annotation. -/
def buildVariables (ann : List ℕ) : List (Var × Option ℚ) :=
  lpVariables (ann.length + 1) (maxNumClauses ann)

/-- An assignment satisfies the built LP instance: it respects every created
variable's lower bound and every emitted constraint. -/
def satisfiesLP (σ : Var → ℚ) (ann : List ℕ) (c al : ℚ) : Prop :=
  (∀ p ∈ buildVariables ann, (p.2.all fun q => decide (q ≤ σ p.1)) = true) ∧
  (∀ cst ∈ buildConstraints ann c al, cst.holds σ)

/-- Feasibility of the built LP instance. -/
def Feasible (ann : List ℕ) (c al : ℚ) : Prop :=
  ∃ σ, satisfiesLP σ ann c al

/-- The solver statuses pulp can report (pulp.LpStatus values). -/
inductive SolveStatus where
  | notSolved
  | optimal
  | infeasible
  | unbounded
  | undefined
deriving DecidableEq

/-- Translation of buildLinearProgram.isFeasible (buildLinearProgram.py,
lines 95 to 105) as a function of the solver's reported status: `some true`
on Optimal, `some false` on Infeasible, and `none` modelling the
`raise ValueError` taken on every other status. -/
def isFeasible (s : SolveStatus) : Option Bool :=
  match s with
  | .optimal => some true
  | .infeasible => some false
  | _ => none

/-- Modelled from the spec (section 4.C): the required classification, under
which Unbounded must be treated as Feasible because the feasible region is
non-empty.  Stated for comparison with `isFeasible`. -/
def isFeasibleSpec (s : SolveStatus) : Option Bool :=
  match s with
  | .optimal => some true
  | .infeasible => some false
  | .unbounded => some true
  | _ => none

/-- Translation of findBestProof.binarySearch (findBestProof.py, lines 134 to
156).  Each call of the source builds a fresh LP and asks the external solver,
so the test `buildLinearProgram(annotation, v, alpha).isFeasible()` is
abstracted into an oracle `feas : ℚ → Bool`; the assert on entry (the low end
must be feasible) becomes a hypothesis of the theorems about this function.
The source returns the exponent together with the readable proof read back at
that same exponent; the exponent is returned here. -/
def binarySearch (feas : ℚ → Bool) (low high : ℚ) : ℕ → ℚ
  | 0 => if feas high then high else low
  | depth + 1 =>
      if feas ((high + low) / 2) then binarySearch feas ((high + low) / 2) high depth
      else binarySearch feas low ((high + low) / 2) depth

/-- Translation of the exponential probe of the driver (findBestProof.py,
lines 245 to 259): starting from `c`, double up to `cap` times; on the first
doubled value the oracle rejects, return the binary-search result on
`(c*2/2, c*2)`; when the loop completes without a rejection, fall through
with no result (`none`) -- the source code then simply continues with the
next annotation. -/
def probeLoop (feas : ℚ → Bool) (depth : ℕ) : ℚ → ℕ → Option ℚ
  | _, 0 => none
  | c, cap + 1 =>
      if feas (c * 2) = false then some (binarySearch feas (c * 2 / 2) (c * 2) depth)
      else probeLoop feas depth (c * 2) cap

/-- The per-annotation search of the driver (findBestProof.py, lines 240 to
259): skip the annotation (`none`) when the oracle rejects the starting
exponent, otherwise run the probe loop.  `none` means the annotation
contributes nothing to the driver's global best. -/
def annBest (feas : ℚ → Bool) (start : ℚ) (cap depth : ℕ) : Option ℚ :=
  if feas start = false then none else probeLoop feas depth start cap

/-- The driver's best-result update (findBestProof.py, lines 252 to 258):
strictly greater replaces the annotation and proof lists, exactly equal
appends to them, anything less leaves them unchanged.  `best` is the running
best exponent, `v` the per-annotation best exponent. -/
def updateBest {A W : Type} (best : ℚ) (anns : List A) (prfs : List W)
    (a : A) (w : W) (v : ℚ) : ℚ × List A × List W :=
  if best < v then (v, [a], [w])
  else if v = best then (best, anns ++ [a], prfs ++ [w])
  else (best, anns, prfs)

/-- One iteration of the driver's loop body on the running state
(best exponent, best annotations, best proofs) and one per-annotation result
(annotation, witness proof, per-annotation best exponent). -/
def driverStep {A W : Type} (st : ℚ × List A × List W) (r : A × W × ℚ) :
    ℚ × List A × List W :=
  updateBest st.1 st.2.1 st.2.2 r.1 r.2.1 r.2.2

/-- The driver's aggregation over the per-annotation results, folded with
`updateBest` from the initial best `search_start - 0.01` and empty lists
(findBestProof.py, lines 235 to 258). -/
def runDriver {A W : Type} (start : ℚ) (results : List (A × W × ℚ)) :
    ℚ × List A × List W :=
  results.foldl driverStep (start - 1/100, [], [])

/-- Running quantifier counts from a given starting count: each slowdown
subtracts 1, everything else adds 1 (the spec's per-step rule after the
opening step).  The list holds the starting count and the count after every
step. -/
def countsFrom (h : ℤ) (l : List ℕ) : List ℤ :=
  List.scanl (fun c op => if op = 0 then c - 1 else c + 1) h l

/-- Modelled from the spec: the running quantifier counts along an annotation,
following the claim's words: the count starts at 0, the first step adds 2
(a speedup opening two quantifiers; a leading slowdown would subtract 1),
every later speedup adds 1 and every slowdown subtracts 1.  The list holds
the count before the first step and after every step. -/
def specCounts (ann : List ℕ) : List ℤ :=
  match ann with
  | [] => [0]
  | op₀ :: rest => 0 :: countsFrom (if op₀ = 0 then (-1 : ℤ) else 2) rest

/-- Modelled from the spec: the width the spec prescribes, the maximum running
quantifier count attained along the annotation plus 2. -/
def specWidth (ann : List ℕ) : ℕ :=
  ((specCounts ann).foldl max 0 + 2).toNat

/-- Validity of an annotation exactly as the claim's words state it: entries
over the binary alphabet, begins with a speedup, ends with a slowdown, and
the running quantifier count stays nonnegative throughout and is zero at the
end. -/
def specValidWeak (ann : List ℕ) : Prop :=
  (∀ op ∈ ann, op = 0 ∨ op = 1) ∧ ann.head? = some 1 ∧ ann.getLast? = some 0 ∧
  (∀ h ∈ specCounts ann, 0 ≤ h) ∧ (specCounts ann).getLast? = some 0

instance : DecidablePred specValidWeak := fun ann => by
  unfold specValidWeak; infer_instance

/-- Validity as the enumerator realises it: the weak conditions and, in
addition, every intermediate count (strictly between the start and the final
step) stays at least 1 -- equivalently, a speedup is never applied to a line
with no quantifiers except as the opening step. -/
def validStrict (ann : List ℕ) : Prop :=
  specValidWeak ann ∧ ∀ h ∈ ((specCounts ann).drop 1).dropLast, 1 ≤ h

instance : DecidablePred validStrict := fun ann => by
  unfold validStrict; infer_instance

/-- The inner while loop of the Semba step (findBestProof.py, lines 122 to
127): while `curr[j] == 1`, clear `curr[j]`, set `curr[k]`, decrement `j` by 1
and `k` by 2.  The recursion is on `j`.  When `j` reaches 0 the guard reads
the sentinel `curr[0]`, which is 0 in every reachable state, so the loop
stops; the translation returns directly there. -/
def walk : List ℕ → ℕ → ℕ → List ℕ × ℕ
  | curr, 0, _ => (curr, 0)
  | curr, j + 1, k =>
      if curr.getD (j + 1) 0 = 1 then walk ((curr.set (j + 1) 0).set k 1) j (k - 2)
      else (curr, j + 1)

/-- One pass of the Semba advance (findBestProof.py, lines 116 to 131), run
after a yield: clear `curr[m]`; if `curr[m-1]` is 0 set it to 1 and decrement
`m`; otherwise run the inner walk from `j = m-1`, `k = (n-1)-1`, break
(`none`) when the walk ends at position 0, else set the stopping position to 1
and reset `m` to `(n-1)-1`. -/
def sembaStep (n : ℕ) (curr : List ℕ) (m : ℕ) : Option (List ℕ × ℕ) :=
  let c1 := curr.set m 0
  if c1.getD (m - 1) 0 = 0 then
    some (c1.set (m - 1) 1, m - 1)
  else
    let w := walk c1 (m - 1) ((n - 1) - 1)
    if w.2 = 0 then none
    else some (w.1.set w.2 1, (n - 1) - 1)

/-- The outer while-true loop of the general branch of the enumerator
(findBestProof.py, lines 107 to 131): yield `curr[1:] ++ [0]`, then advance
with `sembaStep`, stopping at its break.  The source loop has no counter; a
fuel argument makes the translation total, and the theorems below show the
fuel chosen in `annGen` is never exhausted. -/
def sembaRun (n : ℕ) : ℕ → List ℕ → ℕ → List (List ℕ)
  | 0, _, _ => []
  | fuel + 1, curr, m =>
      let out := curr.drop 1 ++ [0]
      match sembaStep n curr m with
      | none => [out]
      | some s => out :: sembaRun n fuel s.1 s.2

/-- The alternating list `[1,0] * q` (Python list repetition). -/
def upDowns (q : ℕ) : List ℕ := (List.replicate q [1, 0]).flatten

/-- Translation of findBestProof.annotationGenerator (findBestProof.py, lines
76 to 131), collected into a list: `n` must be odd (the source asserts it;
even input yields nothing here), lengths 3 and 5 are hard-coded, and the
general branch starts Semba's algorithm from `curr = [0] ++ [1,0]*((n-1)/2)`
with `m = (n-1)-1`. -/
def annGen (n : ℕ) : List (List ℕ) :=
  if n % 2 = 1 then
    if n = 3 then [[1, 0, 0]]
    else if n = 5 then [[1, 1, 0, 0, 0], [1, 0, 1, 0, 0]]
    else sembaRun n (2 ^ n) (0 :: upDowns ((n - 1) / 2)) ((n - 1) - 1)
  else []

/-- A concrete satisfying assignment for the LP built from the list
[1,0,1,0] at exponent 2 and alpha 1 (the instance whose width the buggy
maxNumClauses sets to 2).  Unnamed variables take the value 0. -/
def sigmaEx : Var → ℚ := fun v =>
  match v with
  | .a 0 0 => 2 | .a 1 0 => 1 | .a 2 0 => 2 | .a 3 0 => 1 | .a 4 0 => 2
  | .a 1 2 => 1 | .a 3 2 => 1
  | .b 0 0 => 1 | .b 1 0 => 1 | .b 2 0 => 1 | .b 3 0 => 1 | .b 4 0 => 1
  | .b 1 1 => 1 | .b 3 1 => 1 | .b 1 2 => 1
  | .x 1 => 1 | .x 3 => 1
  | _ => 0

/-- Dyck-completion check: `dyckGo h w` holds when `w`, read as a sequence of
up-steps (1) and down-steps (0) starting from height `h`, stays nonnegative
and ends at height 0.  Any entry other than 0 or 1 fails. -/
def dyckGo : ℕ → List ℕ → Bool
  | h, [] => h == 0
  | h, op :: rest =>
      if op = 1 then dyckGo (h + 1) rest
      else if op = 0 then
        match h with
        | 0 => false
        | h' + 1 => dyckGo h' rest
      else false

/-- A Dyck word over the alphabet 1 (up) and 0 (down). -/
def isDyck (w : List ℕ) : Bool := dyckGo 0 w

/-- Height reached after reading a 0/1 word from height `h`; `none` when the
word dips below 0 or holds a foreign symbol. -/
def heightAfter : ℕ → List ℕ → Option ℕ
  | h, [] => some h
  | h, op :: rest =>
      if op = 1 then heightAfter (h + 1) rest
      else if op = 0 then
        match h with
        | 0 => none
        | h' + 1 => heightAfter h' rest
      else none


/-- Strict lexicographic comparison of lists of naturals, the empty list
smallest and 0 before 1. -/
def lexLt : List ℕ → List ℕ → Bool
  | [], [] => false
  | [], _ :: _ => true
  | _ :: _, [] => false
  | a :: s, b :: t => if a < b then true else if a = b then lexLt s t else false

/-- Reflexive lexicographic comparison. -/
def lexLe (u v : List ℕ) : Bool := lexLt u v || u == v

/-- All 0/1 lists of a given length, in ascending lexicographic order. -/
def allB : ℕ → List (List ℕ)
  | 0 => [[]]
  | len + 1 => ((allB len).map (fun w => 0 :: w)) ++ ((allB len).map (fun w => 1 :: w))

/-- All Dyck words of a given length, in ascending lexicographic order. -/
def allDyck (len : ℕ) : List (List ℕ) := (allB len).filter isDyck

/-- All Dyck words of the length of `w` that are lexicographically at least
`w`, in ascending order: the part of the enumeration that remains when the
Semba state holds `w`. -/
def allDyckGE (w : List ℕ) : List (List ℕ) :=
  (allB w.length).filter (fun u => isDyck u && lexLe w u)

/-- Reference enumerator of Dyck words by semilength through the first-return
decomposition: every nonempty Dyck word is uniquely `1 :: u ++ 0 :: v` with
`u`, `v` Dyck words.  Used to count `allDyck` against `catalan`. -/
def genDyck : ℕ → List (List ℕ)
  | 0 => [[]]
  | q + 1 =>
      (List.range (q + 1)).attach.flatMap fun i =>
        (genDyck i.1).flatMap fun u =>
          (genDyck (q - i.1)).map fun v => 1 :: (u ++ 0 :: v)
termination_by q => q
decreasing_by
  · have := i.2; simp only [List.mem_range] at this; omega
  · omega

/-! Theorems.  Helper lemmas come first, then one theorem per claim (with its
witness or counterexample where the status calls for one). -/

lemma sum_map_const_range (n m : ℕ) : ((List.range n).map (fun _ => m)).sum = n * m := by
  induction n with
  | zero => simp
  | succ k ih =>
      rw [List.range_succ]
      simp only [List.map_append, List.map_cons, List.map_nil, List.sum_append,
        List.sum_cons, List.sum_nil, ih]
      ring

/-- Claim C3 (code_bug): the source's maxNumClauses does not compute the
maximum running quantifier count plus 2.  On the annotation [1,0,0] the
builder's maxNumClauses (buildLinearProgram.py, where `m = max(m,j)` stands
after the loop) returns 2 and the legacy duplicate (which counts every
speedup as +1) returns 3, while the width the claim and the spec prescribe is
4.  The variable-count half of the claim does hold relative to the computed
width: the builder creates exactly `n * (2m + 1)` variables. -/
theorem maxNumClauses_bug :
    maxNumClauses [1, 0, 0] = 2 ∧ specWidth [1, 0, 0] = 4 ∧
    maxNumClausesLegacy [1, 0, 0] = 3 ∧
    maxNumClauses [1, 0, 0] ≠ specWidth [1, 0, 0] ∧
    ∀ n m : ℕ, (lpVariables n m).length = n * (2 * m + 1) := by
  refine ⟨by decide, by decide, by decide, by decide, fun n m => ?_⟩
  simp only [lpVariables, List.length_append, List.length_flatMap, List.length_map,
    List.length_range]
  have key : ∀ g : ℕ → ℕ → Var,
      (List.map (List.length ∘ fun i =>
        List.map (fun j => (g i j, (none : Option ℚ))) (List.range m)) (List.range n)).sum
        = n * m := by
    intro g
    rw [show (List.length ∘ fun i =>
        List.map (fun j => (g i j, (none : Option ℚ))) (List.range m)) = fun _ => m from
      funext fun i => by simp]
    exact sum_map_const_range n m
  rw [key Var.a, key Var.b]
  ring

/-- Claim C4 counterexample: the builder does not create the `a` variables
with lower bound 0.  In the variable list of an instance with n = 4, m = 2
the variable a[(0,0)] carries no lower bound (its bound is `none`, and the
pair with bound `some 0` is absent), while x[0] does carry lower bound 0. -/
theorem aVar_lowBound_none :
    (Var.a 0 0, (none : Option ℚ)) ∈ lpVariables 4 2 ∧
    (Var.a 0 0, (some 0 : Option ℚ)) ∉ lpVariables 4 2 ∧
    (Var.x 0, (some 0 : Option ℚ)) ∈ lpVariables 4 2 := by decide

/-- Claim C4 (amended): the builder creates the `x` variables with lower
bound 0, and the `a` and `b` variables with no lower bound at all, so the
instance itself imposes no nonnegativity on `a` or `b`.  Full
characterization of the created variables. -/
theorem lpVariables_bounds_amended (n m : ℕ) (v : Var) (lb : Option ℚ) :
    (v, lb) ∈ lpVariables n m ↔
      ((∃ i j, i < n ∧ j < m ∧ (v = Var.a i j ∨ v = Var.b i j) ∧ lb = none) ∨
       (∃ i, i < n ∧ v = Var.x i ∧ lb = some 0)) := by
  simp only [lpVariables, List.mem_append, List.mem_flatMap, List.mem_map,
    List.mem_range, Prod.mk.injEq]
  constructor
  · rintro ((⟨i, hi, j, hj, hv, hlb⟩ | ⟨i, hi, j, hj, hv, hlb⟩) | ⟨i, hi, hv, hlb⟩)
    · exact Or.inl ⟨i, j, hi, hj, Or.inl hv.symm, hlb.symm⟩
    · exact Or.inl ⟨i, j, hi, hj, Or.inr hv.symm, hlb.symm⟩
    · exact Or.inr ⟨i, hi, hv.symm, hlb.symm⟩
  · rintro (⟨i, j, hi, hj, hv | hv, hlb⟩ | ⟨i, hi, hv, hlb⟩)
    · exact Or.inl (Or.inl ⟨i, hi, j, hj, hv.symm, hlb.symm⟩)
    · exact Or.inl (Or.inr ⟨i, hi, j, hj, hv.symm, hlb.symm⟩)
    · exact Or.inr ⟨i, hi, hv.symm, hlb.symm⟩

/-- Claim C7 (code_bug): isFeasible returns true on Optimal and false on
Infeasible, but on Unbounded it raises ValueError (modelled `none`) instead
of treating the outcome as Feasible, diverging from the spec's required
classification `isFeasibleSpec`. -/
theorem isFeasible_unbounded_raises :
    isFeasible SolveStatus.optimal = some true ∧
    isFeasible SolveStatus.infeasible = some false ∧
    isFeasible SolveStatus.unbounded = none ∧
    isFeasibleSpec SolveStatus.unbounded = some true ∧
    isFeasible SolveStatus.unbounded ≠ isFeasibleSpec SolveStatus.unbounded := by
  refine ⟨rfl, rfl, rfl, rfl, by decide⟩

/-- Claim C10 (code_bug): because `__init__` assigns the attribute `random`
rather than `rand_speedup`, the flag the initial constraints test is false
even when the annotation's first symbol is SPEEDUP3 (code 2); the builder
then emits `b[1,3] == 0` and never `b[1,3] == 1` for the annotation
[2,0,0]. -/
theorem randSpeedup_never_set :
    randSpeedupFlag [2, 0, 0] = false ∧ (initFlags [2, 0, 0]).2 = true ∧
    Cstr.eq (bv 1 3) (Expr.const 0) ∈ buildConstraints [2, 0, 0] 1 1 ∧
    Cstr.eq (bv 1 3) (Expr.const 1) ∉ buildConstraints [2, 0, 0] 1 1 := by decide

lemma binarySearch_bounds (feas : ℚ → Bool) :
    ∀ depth low high, feas low = true → low ≤ high →
      low ≤ binarySearch feas low high depth ∧
      binarySearch feas low high depth ≤ high ∧
      feas (binarySearch feas low high depth) = true := by
  intro depth
  induction depth with
  | zero =>
      intro low high hlow hle
      have he : binarySearch feas low high 0 = if feas high = true then high else low := rfl
      by_cases hf : feas high = true
      · rw [he, if_pos hf]; exact ⟨hle, le_refl _, hf⟩
      · rw [he, if_neg hf]; exact ⟨le_refl _, hle, hlow⟩
  | succ d ih =>
      intro low high hlow hle
      have he : binarySearch feas low high (d + 1) =
          if feas ((high + low) / 2) = true then binarySearch feas ((high + low) / 2) high d
          else binarySearch feas low ((high + low) / 2) d := rfl
      by_cases hf : feas ((high + low) / 2) = true
      · rw [he, if_pos hf]
        obtain ⟨h1, h2, h3⟩ := ih ((high + low) / 2) high hf (by linarith)
        exact ⟨by linarith, h2, h3⟩
      · rw [he, if_neg hf]
        obtain ⟨h1, h2, h3⟩ := ih low ((high + low) / 2) hlow (by linarith)
        exact ⟨h1, by linarith, h3⟩

/-- Claim C6: on an interval whose low end the feasibility oracle accepts and
whose high end it rejects, binarySearch returns an exponent inside the
interval that the oracle accepts; at depth 0 it returns high when feasible
and low otherwise, and at positive depth it recurses on the midpoint
`(high + low) / 2`, into the upper half when the midpoint is feasible and
into the lower half otherwise. -/
theorem binarySearch_correct (feas : ℚ → Bool) (low high : ℚ) (depth : ℕ)
    (hlow : feas low = true) (hlh : low < high) (hhigh : feas high = false) :
    (low ≤ binarySearch feas low high depth ∧
     binarySearch feas low high depth ≤ high ∧
     feas (binarySearch feas low high depth) = true) ∧
    binarySearch feas low high 0 = (if feas high then high else low) ∧
    (∀ d : ℕ, binarySearch feas low high (d + 1) =
      if feas ((high + low) / 2) then binarySearch feas ((high + low) / 2) high d
      else binarySearch feas low ((high + low) / 2) d) := by
  refine ⟨binarySearch_bounds feas depth low high hlow (le_of_lt hlh), rfl, fun d => rfl⟩

/-- Claim C6 witness: the oracle accepting exactly the exponents at most 1,
on the interval from 0 to 2 at depth 3. -/
theorem binarySearch_correct_example :
    ((0 : ℚ) ≤ binarySearch (fun q => decide (q ≤ 1)) 0 2 3 ∧
     binarySearch (fun q => decide (q ≤ 1)) 0 2 3 ≤ 2 ∧
     (fun q : ℚ => decide (q ≤ 1)) (binarySearch (fun q => decide (q ≤ 1)) 0 2 3) = true) ∧
    binarySearch (fun q : ℚ => decide (q ≤ 1)) 0 2 0 = (if decide ((2 : ℚ) ≤ 1) then 2 else 0) ∧
    (∀ d : ℕ, binarySearch (fun q : ℚ => decide (q ≤ 1)) 0 2 (d + 1) =
      if decide ((2 + 0 : ℚ) / 2 ≤ 1) then binarySearch (fun q : ℚ => decide (q ≤ 1)) ((2 + 0) / 2) 2 d
      else binarySearch (fun q : ℚ => decide (q ≤ 1)) 0 ((2 + 0) / 2) d) :=
  binarySearch_correct (fun q => decide (q ≤ 1)) 0 2 3 (by decide) (by norm_num) (by decide)

/-- Claim C8 counterexample: with an oracle that accepts every exponent
(so no doubling step within the cap ever turns infeasible), the
per-annotation search with start 1, cap 3 yields no result at all: the
annotation is silently dropped, instead of retaining the last feasible
exponent 8. -/
theorem probe_cap_silent_cex :
    annBest (fun _ => true) 1 3 6 = none ∧
    annBest (fun _ => true) 1 3 6 ≠ some 8 := by decide

lemma probeLoop_none (feas : ℚ → Bool) (depth : ℕ) :
    ∀ cap c, (∀ k : ℕ, 1 ≤ k → k ≤ cap → feas (c * 2 ^ k) = true) →
      probeLoop feas depth c cap = none := by
  intro cap
  induction cap with
  | zero => intro c _; rfl
  | succ p ih =>
      intro c h
      have h1 : feas (c * 2) = true := by
        have := h 1 (by omega) (by omega); simpa using this
      simp only [probeLoop, h1]
      exact ih (c * 2) fun k hk1 hk2 => by
        have := h (k + 1) (by omega) (by omega)
        have e : c * 2 ^ (k + 1) = c * 2 * 2 ^ k := by ring
        rwa [e] at this

/-- Claim C8 (amended): when the oracle accepts the starting exponent and
every doubled exponent up to the cap, the per-annotation search returns no
result: the source emits no diagnostic and retains nothing, so the
annotation contributes nothing to the driver's global best. -/
theorem probe_cap_silent_amended (feas : ℚ → Bool) (start : ℚ) (cap depth : ℕ)
    (hall : ((List.range (cap + 1)).all fun k => feas (start * 2 ^ k)) = true) :
    annBest feas start cap depth = none := by
  simp only [List.all_eq_true, List.mem_range] at hall
  have h0 : feas start = true := by
    have := hall 0 (by omega); simpa using this
  simp only [annBest, h0]
  simp only [Bool.true_eq_false, if_false]
  exact probeLoop_none feas depth cap start fun k hk1 hk2 => hall k (by omega)

/-- Claim C8 witness: the always-feasible oracle at start 1, cap 3. -/
theorem probe_cap_silent_example :
    annBest (fun _ : ℚ => true) 1 3 2 = none :=
  probe_cap_silent_amended (fun _ => true) 1 3 2 (by decide)

/-- Claim C9 counterexample: the driver's update is not tolerance-based.
A per-annotation best exceeding the global best 1 by only 1/1000000 replaces
the best lists (here: annotation list and proof list are wiped and restarted)
instead of being appended as a tie within tolerance. -/
theorem driver_update_cex :
    updateBest (1 : ℚ) [[1, 0, 0]] [(0 : ℕ)] [1, 1, 0, 0, 0] 1 (1 + 1 / 1000000) =
      (1 + 1 / 1000000, [[1, 1, 0, 0, 0]], [1]) := by
  norm_num [updateBest]

lemma driverStep_fst {A W : Type} (st : ℚ × List A × List W) (r : A × W × ℚ) :
    (driverStep st r).1 = max st.1 r.2.2 := by
  unfold driverStep updateBest
  by_cases h1 : st.1 < r.2.2
  · rw [if_pos h1]; exact (max_eq_right (le_of_lt h1)).symm
  · rw [if_neg h1]
    by_cases h2 : r.2.2 = st.1
    · rw [if_pos h2]; exact (max_eq_left (le_of_not_lt h1)).symm
    · rw [if_neg h2]; exact (max_eq_left (le_of_not_lt h1)).symm

lemma driverStep_keep {A W : Type} (st : ℚ × List A × List W) (r : A × W × ℚ)
    (h : ¬ st.1 < r.2.2) :
    (∀ a ∈ st.2.1, a ∈ (driverStep st r).2.1) ∧
    (∀ w ∈ st.2.2, w ∈ (driverStep st r).2.2) := by
  unfold driverStep updateBest
  rw [if_neg h]
  by_cases h2 : r.2.2 = st.1
  · rw [if_pos h2]
    exact ⟨fun a ha => List.mem_append_left _ ha, fun w hw => List.mem_append_left _ hw⟩
  · rw [if_neg h2]
    exact ⟨fun a ha => ha, fun w hw => hw⟩

lemma foldl_driver_mono {A W : Type} :
    ∀ (results : List (A × W × ℚ)) (st : ℚ × List A × List W),
      st.1 ≤ (results.foldl driverStep st).1 := by
  intro results
  induction results with
  | nil => intro st; exact le_refl _
  | cons r rest ih =>
      intro st
      rw [List.foldl_cons]
      refine le_trans ?_ (ih (driverStep st r))
      rw [driverStep_fst]
      exact le_max_left _ _

lemma foldl_driver_keep {A W : Type} :
    ∀ (results : List (A × W × ℚ)) (st : ℚ × List A × List W),
      st.1 = (results.foldl driverStep st).1 →
      (∀ a ∈ st.2.1, a ∈ (results.foldl driverStep st).2.1) ∧
      (∀ w ∈ st.2.2, w ∈ (results.foldl driverStep st).2.2) := by
  intro results
  induction results with
  | nil => intro st _; exact ⟨fun a ha => ha, fun w hw => hw⟩
  | cons r rest ih =>
      intro st h
      rw [List.foldl_cons] at h ⊢
      have hstep : st.1 = (driverStep st r).1 := by
        refine le_antisymm ?_ ?_
        · rw [driverStep_fst]; exact le_max_left _ _
        · rw [h]; exact foldl_driver_mono rest (driverStep st r)
      have hnlt : ¬ st.1 < r.2.2 := by
        intro hlt
        have : st.1 < (driverStep st r).1 := by
          rw [driverStep_fst]; exact lt_max_of_lt_right hlt
        rw [← hstep] at this; exact lt_irrefl _ this
      obtain ⟨k1, k2⟩ := ih (driverStep st r) (hstep ▸ h)
      obtain ⟨s1, s2⟩ := driverStep_keep st r hnlt
      exact ⟨fun a ha => k1 a (s1 a ha), fun w hw => k2 w (s2 w hw)⟩

/-- Claim C9 (amended): the driver's update rule is exact, not
tolerance-based: a per-annotation best strictly greater than the global best
replaces the annotation and proof lists, one exactly equal appends to both,
and consequently every entry whose exponent equals the final best appears in
the returned lists together with its witness. -/
theorem driver_update_amended {A W : Type} (best v : ℚ) (anns : List A)
    (prfs : List W) (a : A) (w : W) (start : ℚ) (results : List (A × W × ℚ)) :
    (best < v → updateBest best anns prfs a w v = (v, [a], [w])) ∧
    (v = best → updateBest best anns prfs a w v = (best, anns ++ [a], prfs ++ [w])) ∧
    ((a, w, v) ∈ results → v = (runDriver start results).1 →
      a ∈ (runDriver start results).2.1 ∧ w ∈ (runDriver start results).2.2) := by
  refine ⟨fun h => by rw [updateBest, if_pos h], fun h => by
    rw [updateBest, if_neg (by rw [h]; exact lt_irrefl best), if_pos h], ?_⟩
  intro hmem hv
  obtain ⟨l₁, l₂, rfl⟩ := List.append_of_mem hmem
  unfold runDriver at hv ⊢
  rw [List.foldl_append, List.foldl_cons] at hv ⊢
  set st₁ := List.foldl driverStep (start - 1/100, ([] : List A), ([] : List W)) l₁ with hst₁
  have hmax : (driverStep st₁ (a, w, v)).1 = max st₁.1 v := driverStep_fst _ _
  have hmono := foldl_driver_mono l₂ (driverStep st₁ (a, w, v))
  have heq : (driverStep st₁ (a, w, v)).1
      = (List.foldl driverStep (driverStep st₁ (a, w, v)) l₂).1 := by
    refine le_antisymm hmono ?_
    rw [← hv, hmax]
    exact le_max_right _ _
  obtain ⟨k1, k2⟩ := foldl_driver_keep l₂ _ heq
  have hred : driverStep st₁ (a, w, v) = updateBest st₁.1 st₁.2.1 st₁.2.2 a w v := rfl
  have hsmem : a ∈ (driverStep st₁ (a, w, v)).2.1 ∧ w ∈ (driverStep st₁ (a, w, v)).2.2 := by
    rw [hred]
    unfold updateBest
    by_cases h1 : st₁.1 < v
    · rw [if_pos h1]
      exact ⟨List.mem_singleton_self a, List.mem_singleton_self w⟩
    · have h2 : v = st₁.1 := by
        refine le_antisymm (le_of_not_lt h1) ?_
        calc st₁.1 ≤ max st₁.1 v := le_max_left _ _
          _ = (driverStep st₁ (a, w, v)).1 := hmax.symm
          _ = (List.foldl driverStep (driverStep st₁ (a, w, v)) l₂).1 := heq
          _ = v := hv.symm
      rw [if_neg h1, if_pos h2]
      exact ⟨List.mem_append_right _ (List.mem_singleton_self a),
        List.mem_append_right _ (List.mem_singleton_self w)⟩
  exact ⟨k1 a hsmem.1, k2 w hsmem.2⟩

/-- Claim C1: for a slowdown line `i` the builder emits exactly the slowdown
constraint family: the four scaled lower bounds on `a[i,0]` (alpha applied
only to the first), `a[i,0] >= 1`, the shift `b[i,0] = b[i-1,1]`, the
left-shift equalities for every `1 <= k <= m-2`, and the zeroing of index
`m-1`; nothing else. -/
theorem slowdown_family_exact (c al : ℚ) (m i : ℕ) (hm : 2 ≤ m) :
    ∀ cst : Cstr, cst ∈ addSlowdownConstraints c al m i ↔
      (cst = .ge (av i 0) (.smul (c * al) (av (i-1) 0)) ∨
       cst = .ge (av i 0) (.smul c (av (i-1) 1)) ∨
       cst = .ge (av i 0) (.smul c (bv (i-1) 0)) ∨
       cst = .ge (av i 0) (.smul c (bv (i-1) 1)) ∨
       cst = .ge (av i 0) (.const 1) ∨
       cst = .eq (bv i 0) (bv (i-1) 1) ∨
       (∃ k, 1 ≤ k ∧ k ≤ m - 2 ∧
         (cst = .eq (av i k) (av (i-1) (k+1)) ∨ cst = .eq (bv i k) (bv (i-1) (k+1)))) ∨
       cst = .eq (av i (m-1)) (.const 0) ∨
       cst = .eq (bv i (m-1)) (.const 0)) := by
  intro cst
  simp only [addSlowdownConstraints, List.mem_append, List.mem_cons, List.not_mem_nil,
    or_false, List.mem_flatMap, List.mem_range']
  constructor
  · rintro (((h | h | h | h | h | h) | ⟨j, ⟨t, ht, rfl⟩, hj⟩) | (h | h)) <;>
      try (subst h; tauto)
    refine Or.inr (Or.inr (Or.inr (Or.inr (Or.inr (Or.inr (Or.inl
      ⟨1 + 1 * t, by omega, by omega, ?_⟩))))))
    simpa using hj
  · rintro (h | h | h | h | h | h | ⟨k, hk1, hk2, hk⟩ | h | h) <;>
      try (subst h; tauto)
    refine Or.inl (Or.inr ⟨k, ⟨k - 1, by omega, by omega⟩, ?_⟩)
    simpa using hk

/-- Claim C1 witness: the family at exponent 2, alpha 1, width 4, line 3. -/
theorem slowdown_family_exact_at :
    2 ≤ 4 ∧ ∀ cst : Cstr, cst ∈ addSlowdownConstraints 2 1 4 3 ↔
      (cst = .ge (av 3 0) (.smul (2 * 1) (av 2 0)) ∨
       cst = .ge (av 3 0) (.smul 2 (av 2 1)) ∨
       cst = .ge (av 3 0) (.smul 2 (bv 2 0)) ∨
       cst = .ge (av 3 0) (.smul 2 (bv 2 1)) ∨
       cst = .ge (av 3 0) (.const 1) ∨
       cst = .eq (bv 3 0) (bv 2 1) ∨
       (∃ k, 1 ≤ k ∧ k ≤ 2 ∧
         (cst = .eq (av 3 k) (av 2 (k+1)) ∨ cst = .eq (bv 3 k) (bv 2 (k+1)))) ∨
       cst = .eq (av 3 3) (.const 0) ∨
       cst = .eq (bv 3 3) (.const 0)) :=
  ⟨by norm_num, slowdown_family_exact 2 1 4 3 (by norm_num)⟩

lemma set_append_left (u v : List ℕ) (i x : ℕ) (h : i < u.length) :
    (u ++ v).set i x = u.set i x ++ v := by
  rw [List.set_append, if_pos h]

lemma set_append_right (u v : List ℕ) (k x : ℕ) :
    (u ++ v).set (u.length + k) x = u ++ v.set k x := by
  rw [List.set_append, if_neg (by omega), Nat.add_sub_cancel_left]

lemma getD_append_left (u v : List ℕ) (i d : ℕ) (h : i < u.length) :
    (u ++ v).getD i d = u.getD i d :=
  List.getD_append u v d i h

lemma getD_append_right' (u v : List ℕ) (k d : ℕ) :
    (u ++ v).getD (u.length + k) d = v.getD k d := by
  rw [List.getD_append_right u v d _ (by omega), Nat.add_sub_cancel_left]

lemma getD_replicate (k i x d : ℕ) (h : i < k) :
    (List.replicate k x).getD i d = x := by
  induction k generalizing i with
  | zero => omega
  | succ n ih =>
      rw [List.replicate_succ]
      cases i with
      | zero => rfl
      | succ j => simpa using ih j (by omega)

lemma set_replicate (k i x y : ℕ) (h : i < k) :
    (List.replicate k x).set i y
      = List.replicate i x ++ y :: List.replicate (k - i - 1) x := by
  induction k generalizing i with
  | zero => omega
  | succ n ih =>
      rw [List.replicate_succ]
      cases i with
      | zero => simp
      | succ j =>
          have hset : (x :: List.replicate n x).set (j + 1) y
              = x :: (List.replicate n x).set j y := rfl
          have harith : n + 1 - (j + 1) - 1 = n - j - 1 := by omega
          rw [hset, ih j (by omega), harith]
          rfl

lemma upDowns_succ (t : ℕ) : upDowns (t + 1) = 1 :: 0 :: upDowns t := by
  unfold upDowns
  rw [List.replicate_succ, List.flatten_cons]
  rfl

lemma upDowns_succ' (t : ℕ) : upDowns (t + 1) = upDowns t ++ [1, 0] := by
  induction t with
  | zero => rfl
  | succ t ih =>
      calc upDowns (t + 2) = 1 :: 0 :: upDowns (t + 1) := upDowns_succ (t + 1)
        _ = 1 :: 0 :: (upDowns t ++ [1, 0]) := by rw [ih]
        _ = (1 :: 0 :: upDowns t) ++ [1, 0] := rfl
        _ = upDowns (t + 1) ++ [1, 0] := by rw [upDowns_succ t]

lemma upDowns_length (t : ℕ) : (upDowns t).length = 2 * t := by
  induction t with
  | zero => rfl
  | succ t ih => rw [upDowns_succ]; simp [ih]; omega

lemma replicate_append_cons (a x : ℕ) (l : List ℕ) :
    List.replicate a x ++ x :: l = List.replicate (a + 1) x ++ l := by
  rw [List.replicate_succ' a x]
  simp

lemma heightAfter_iff_dyckGo (w : List ℕ) : ∀ h, dyckGo h w = true ↔ heightAfter h w = some 0 := by
  induction w with
  | nil => intro h; simp [dyckGo, heightAfter]
  | cons op w ih =>
      intro h
      by_cases h1 : op = 1
      · subst h1; simp [dyckGo, heightAfter, ih]
      · by_cases h0 : op = 0
        · subst h0
          cases h with
          | zero => simp [dyckGo, heightAfter]
          | succ h' => simp [dyckGo, heightAfter, ih]
        · simp [dyckGo, heightAfter, h1, h0]

lemma heightAfter_append (u v : List ℕ) : ∀ h, heightAfter h (u ++ v)
    = (heightAfter h u).bind fun h' => heightAfter h' v := by
  induction u with
  | nil => intro h; simp [heightAfter]
  | cons op u ih =>
      intro h
      by_cases h1 : op = 1
      · subst h1; simp [heightAfter, ih]
      · by_cases h0 : op = 0
        · subst h0
          cases h with
          | zero => simp [heightAfter]
          | succ h' => simp [heightAfter, ih]
        · simp [heightAfter, h1, h0]

lemma heightAfter_replicate_one (t : ℕ) : ∀ h, heightAfter h (List.replicate t 1) = some (h + t) := by
  induction t with
  | zero => intro h; simp [heightAfter]
  | succ t ih =>
      intro h
      rw [List.replicate_succ]
      show heightAfter (h + 1) (List.replicate t 1) = some (h + (t + 1))
      rw [ih (h + 1)]
      congr 1
      omega

lemma heightAfter_replicate_zero (z : ℕ) :
    ∀ h, heightAfter h (List.replicate z 0)
      = if z ≤ h then some (h - z) else none := by
  induction z with
  | zero => intro h; simp [heightAfter]
  | succ z ih =>
      intro h
      rw [List.replicate_succ]
      cases h with
      | zero => simp [heightAfter]
      | succ h' =>
          show heightAfter h' (List.replicate z 0) = _
          rw [ih h']
          by_cases hz : z ≤ h'
          · rw [if_pos hz, if_pos (by omega)]
            congr 1
            omega
          · rw [if_neg hz, if_neg (by omega)]

lemma heightAfter_upDowns (t : ℕ) : ∀ h, heightAfter h (upDowns t) = some h := by
  induction t with
  | zero => intro h; rfl
  | succ t ih =>
      intro h
      rw [upDowns_succ]
      show heightAfter h (1 :: 0 :: upDowns t) = some h
      simp [heightAfter, ih]

lemma isDyck_upDowns (t : ℕ) : isDyck (upDowns t) = true := by
  rw [isDyck, heightAfter_iff_dyckGo, heightAfter_upDowns]

lemma heightAfter_shift (l : List ℕ) : ∀ h h' d, heightAfter h l = some h' →
    heightAfter (h + d) l = some (h' + d) := by
  induction l with
  | nil => intro h h' d hh; simp [heightAfter] at hh ⊢; omega
  | cons op l ih =>
      intro h h' d hh
      by_cases h1 : op = 1
      · subst h1
        simp only [heightAfter, if_pos rfl] at hh ⊢
        have := ih (h + 1) h' d hh
        rwa [show h + 1 + d = h + d + 1 from by omega] at this
      · by_cases h0 : op = 0
        · subst h0
          cases h with
          | zero => simp [heightAfter] at hh
          | succ k =>
              simp [heightAfter] at hh
              rw [show k + 1 + d = k + d + 1 from by omega]
              simp [heightAfter]
              exact ih k h' d hh
        · simp [heightAfter, h1, h0] at hh

lemma heightAfter_of_dyck (a : List ℕ) (ha : isDyck a = true) (h : ℕ) :
    heightAfter h a = some h := by
  rw [isDyck, heightAfter_iff_dyckGo] at ha
  have := heightAfter_shift a 0 0 h ha
  simpa using this

lemma heightAfter_entries (w : List ℕ) : ∀ h h', heightAfter h w = some h' →
    ∀ x ∈ w, x = 0 ∨ x = 1 := by
  induction w with
  | nil => intro _ _ _ x hx; simp at hx
  | cons op w ih =>
      intro h h' hh x hx
      by_cases h1 : op = 1
      · subst h1
        simp only [heightAfter, if_pos rfl] at hh
        rcases List.mem_cons.mp hx with rfl | hx
        · exact Or.inr rfl
        · exact ih (h + 1) h' hh x hx
      · by_cases h0 : op = 0
        · subst h0
          cases h with
          | zero => simp [heightAfter] at hh
          | succ k =>
              simp [heightAfter] at hh
              rcases List.mem_cons.mp hx with rfl | hx
              · exact Or.inl rfl
              · exact ih k h' hh x hx
        · simp [heightAfter, h1, h0] at hh

lemma heightAfter_le_length (w : List ℕ) : ∀ h h', heightAfter h w = some h' →
    h ≤ h' + w.length := by
  induction w with
  | nil => intro h h' hh; simp [heightAfter] at hh; omega
  | cons op w ih =>
      intro h h' hh
      by_cases h1 : op = 1
      · subst h1
        simp only [heightAfter, if_pos rfl] at hh
        have := ih (h + 1) h' hh
        simp only [List.length_cons]
        omega
      · by_cases h0 : op = 0
        · subst h0
          cases h with
          | zero => simp only [List.length_cons]; omega
          | succ k =>
              simp [heightAfter] at hh
              have := ih k h' hh
              simp only [List.length_cons]
              omega
        · simp [heightAfter, h1, h0] at hh

lemma heightAfter_parity (w : List ℕ) : ∀ h h', heightAfter h w = some h' →
    (h + w.length) % 2 = h' % 2 := by
  induction w with
  | nil =>
      intro h h' hh
      simp [heightAfter] at hh
      simp only [List.length_nil]
      omega
  | cons op w ih =>
      intro h h' hh
      by_cases h1 : op = 1
      · subst h1
        simp only [heightAfter, if_pos rfl] at hh
        have := ih (h + 1) h' hh
        simp only [List.length_cons]
        omega
      · by_cases h0 : op = 0
        · subst h0
          cases h with
          | zero => simp [heightAfter] at hh
          | succ k =>
              simp [heightAfter] at hh
              have := ih k h' hh
              simp only [List.length_cons]
              omega
        · simp [heightAfter, h1, h0] at hh

lemma heightAfter_all_zero (w : List ℕ) : ∀ h, heightAfter h w = some 0 →
    w.length = h → w = List.replicate h 0 := by
  induction w with
  | nil => intro h _ hl; simp at hl; subst hl; rfl
  | cons op w ih =>
      intro h hh hl
      by_cases h1 : op = 1
      · subst h1
        simp only [heightAfter, if_pos rfl] at hh
        have := heightAfter_le_length w (h + 1) 0 hh
        simp only [List.length_cons] at hl
        omega
      · by_cases h0 : op = 0
        · subst h0
          cases h with
          | zero => simp at hl
          | succ k =>
              simp [heightAfter] at hh
              simp only [List.length_cons] at hl
              rw [List.replicate_succ, ih k hh (by omega)]
        · simp [heightAfter, h1, h0] at hh

lemma lexLt_irrefl (u : List ℕ) : lexLt u u = false := by
  induction u with
  | nil => rfl
  | cons x u ih => simp [lexLt, ih]

lemma lexLt_cons_same (x : ℕ) (u v : List ℕ) : lexLt (x :: u) (x :: v) = lexLt u v := by
  simp [lexLt]

lemma lexLt_append_same (r : List ℕ) : ∀ u v, lexLt (r ++ u) (r ++ v) = lexLt u v := by
  induction r with
  | nil => intro u v; rfl
  | cons x r ih => intro u v; rw [List.cons_append, List.cons_append, lexLt_cons_same, ih]

lemma lexLt_asymm : ∀ u v : List ℕ, lexLt u v = true → lexLt v u = false := by
  intro u
  induction u with
  | nil => intro v _; cases v <;> rfl
  | cons x u ih =>
      intro v hv
      cases v with
      | nil => simp [lexLt] at hv
      | cons y v =>
          simp only [lexLt] at hv ⊢
          by_cases hxy : x < y
          · rw [if_neg (show ¬ y < x by omega), if_neg (show ¬ y = x by omega)]
          · by_cases hne : x = y
            · subst hne
              rw [if_neg hxy, if_pos rfl] at hv ⊢
              exact ih v hv
            · rw [if_neg hxy, if_neg hne] at hv
              exact absurd hv (by simp)

lemma lexLt_trans : ∀ u v w : List ℕ, lexLt u v = true → lexLt v w = true →
    lexLt u w = true := by
  intro u
  induction u with
  | nil =>
      intro v w huv hvw
      cases v with
      | nil => simp [lexLt] at huv
      | cons y v =>
          cases w with
          | nil => simp [lexLt] at hvw
          | cons z w => rfl
  | cons x u ih =>
      intro v w huv hvw
      cases v with
      | nil => simp [lexLt] at huv
      | cons y v =>
          cases w with
          | nil => simp [lexLt] at hvw
          | cons z w =>
              simp only [lexLt] at huv hvw ⊢
              by_cases hxy : x < y
              · by_cases hyz : y < z
                · rw [if_pos (show x < z by omega)]
                · by_cases hyz' : y = z
                  · rw [if_pos (show x < z by omega)]
                  · rw [if_neg hyz, if_neg hyz'] at hvw
                    exact absurd hvw (by simp)
              · by_cases hne : x = y
                · subst hne
                  rw [if_neg hxy, if_pos rfl] at huv
                  by_cases hyz : x < z
                  · rw [if_pos hyz]
                  · by_cases hyz' : x = z
                    · subst hyz'
                      rw [if_neg hyz, if_pos rfl] at hvw ⊢
                      exact ih v w huv hvw
                    · rw [if_neg hyz, if_neg hyz'] at hvw
                      exact absurd hvw (by simp)
                · rw [if_neg hxy, if_neg hne] at huv
                  exact absurd huv (by simp)

lemma lexLe_refl (u : List ℕ) : lexLe u u = true := by
  simp [lexLe]

lemma lexLe_iff (u v : List ℕ) : lexLe u v = true ↔ lexLt u v = true ∨ u = v := by
  simp [lexLe, Bool.or_eq_true, beq_iff_eq]

lemma lexLe_of_lt {u v : List ℕ} (h : lexLt u v = true) : lexLe u v = true := by
  rw [lexLe_iff]; exact Or.inl h

lemma lexLt_of_lt_of_le {u v w : List ℕ} (h1 : lexLt u v = true)
    (h2 : lexLe v w = true) : lexLt u w = true := by
  rcases (lexLe_iff v w).mp h2 with h | rfl
  · exact lexLt_trans u v w h1 h
  · exact h1

lemma lexLe_not_lt {u v : List ℕ} (h : lexLt u v = true) : lexLe v u = false := by
  cases hle : lexLe v u
  · rfl
  · exfalso
    rcases (lexLe_iff v u).mp hle with h' | rfl
    · have := lexLt_asymm u v h
      rw [h'] at this
      exact absurd this (by simp)
    · rw [lexLt_irrefl] at h
      exact absurd h (by simp)

lemma lexLt_exists_split : ∀ u v : List ℕ, u.length = v.length → lexLt u v = true →
    ∃ r a b u' v', u = r ++ a :: u' ∧ v = r ++ b :: v' ∧ a < b := by
  intro u
  induction u with
  | nil =>
      intro v hlen hv
      cases v with
      | nil => simp [lexLt] at hv
      | cons y v => simp at hlen
  | cons x u ih =>
      intro v hlen hv
      cases v with
      | nil => simp at hlen
      | cons y v =>
          simp only [lexLt] at hv
          by_cases hxy : x < y
          · exact ⟨[], x, y, u, v, rfl, rfl, hxy⟩
          · by_cases hne : x = y
            · subst hne
              rw [if_neg hxy, if_pos rfl] at hv
              obtain ⟨r, a, b, u', v', hu, hvv, hab⟩ := ih v (by simpa using hlen) hv
              exact ⟨x :: r, a, b, u', v', by rw [hu]; rfl, by rw [hvv]; rfl, hab⟩
            · rw [if_neg hxy, if_neg hne] at hv
              exact absurd hv (by simp)

lemma prefix_extend (r : List ℕ) : ∀ (a : ℕ) (w' p rest : List ℕ),
    r ++ a :: w' = p ++ rest → r.length < p.length → ∃ p', p = r ++ a :: p' := by
  induction r with
  | nil =>
      intro a w' p rest h hlen
      cases p with
      | nil => simp at hlen
      | cons x p' =>
          simp only [List.nil_append, List.cons_append, List.cons.injEq] at h
          exact ⟨p', by simp [h.1]⟩
  | cons x r ih =>
      intro a w' p rest h hlen
      cases p with
      | nil => simp at hlen
      | cons y p' =>
          simp only [List.cons_append, List.cons.injEq] at h
          obtain ⟨p'', hp⟩ := ih a w' p' rest h.2 (by simpa using hlen)
          exact ⟨p'', by rw [← h.1, hp]; rfl⟩

lemma allB_length_pow (len : ℕ) : (allB len).length = 2 ^ len := by
  induction len with
  | zero => rfl
  | succ n ih => simp [allB, ih]; ring

lemma mem_allB : ∀ (len : ℕ) (u : List ℕ),
    u ∈ allB len ↔ (u.length = len ∧ ∀ x ∈ u, x = 0 ∨ x = 1) := by
  intro len
  induction len with
  | zero =>
      intro u
      constructor
      · intro hu
        simp [allB] at hu
        subst hu
        simp
      · intro ⟨hl, _⟩
        rw [List.length_eq_zero] at hl
        subst hl
        simp [allB]
  | succ n ih =>
      intro u
      constructor
      · intro hu
        simp only [allB, List.mem_append, List.mem_map] at hu
        rcases hu with ⟨w, hw, rfl⟩ | ⟨w, hw, rfl⟩ <;>
          obtain ⟨hl, he⟩ := (ih w).mp hw
        · refine ⟨by simp [hl], ?_⟩
          intro x hx
          rcases List.mem_cons.mp hx with rfl | hx
          · exact Or.inl rfl
          · exact he x hx
        · refine ⟨by simp [hl], ?_⟩
          intro x hx
          rcases List.mem_cons.mp hx with rfl | hx
          · exact Or.inr rfl
          · exact he x hx
      · intro ⟨hl, he⟩
        cases u with
        | nil => simp at hl
        | cons x u' =>
            simp only [allB, List.mem_append, List.mem_map]
            have hu' : u' ∈ allB n :=
              (ih u').mpr ⟨by simpa using hl, fun y hy => he y (List.mem_cons_of_mem x hy)⟩
            rcases he x (List.mem_cons_self x u') with rfl | rfl
            · exact Or.inl ⟨u', hu', rfl⟩
            · exact Or.inr ⟨u', hu', rfl⟩

lemma allB_nodup (len : ℕ) : (allB len).Nodup := by
  induction len with
  | zero => simp [allB]
  | succ n ih =>
      rw [allB, List.nodup_append]
      refine ⟨ih.map (fun a b h => by simpa using h),
        ih.map (fun a b h => by simpa using h), ?_⟩
      intro u hu hv
      simp only [List.mem_map] at hu hv
      obtain ⟨w, _, rfl⟩ := hu
      obtain ⟨w', _, he⟩ := hv
      simp at he

lemma allB_pairwise (len : ℕ) :
    (allB len).Pairwise (fun u v => lexLt u v = true) := by
  induction len with
  | zero => simp [allB]
  | succ n ih =>
      rw [allB, List.pairwise_append]
      refine ⟨List.pairwise_map.mpr (ih.imp ?_), List.pairwise_map.mpr (ih.imp ?_), ?_⟩
      · intro a b hab; rwa [lexLt_cons_same]
      · intro a b hab; rwa [lexLt_cons_same]
      · intro a ha b hb
        simp only [List.mem_map] at ha hb
        obtain ⟨w, _, rfl⟩ := ha
        obtain ⟨w', _, rfl⟩ := hb
        simp [lexLt]

lemma filter_ge_cons (p : List ℕ → Bool) (w : List ℕ) :
    ∀ l : List (List ℕ), l.Pairwise (fun u v => lexLt u v = true) → w ∈ l →
      p w = true →
      l.filter (fun u => p u && lexLe w u) = w :: l.filter (fun u => p u && lexLt w u) := by
  intro l
  induction l with
  | nil => intro _ hmem _; simp at hmem
  | cons x l' ih =>
      intro hpw hmem hp
      have hx := (List.pairwise_cons.mp hpw).1
      have htl := (List.pairwise_cons.mp hpw).2
      rcases List.mem_cons.mp hmem with rfl | hmem'
      · rw [List.filter_cons, List.filter_cons]
        rw [if_pos (by rw [hp, lexLe_refl]; rfl), if_neg (by rw [hp, lexLt_irrefl]; simp)]
        congr 1
        refine List.filter_congr ?_
        intro y hy
        have hlt := hx y hy
        rw [lexLe_of_lt hlt, hlt]
      · rw [List.filter_cons, List.filter_cons]
        have hxw := hx w hmem'
        rw [if_neg (by rw [lexLe_not_lt hxw]; simp), if_neg (by rw [lexLt_asymm x w hxw]; simp)]
        exact ih htl hmem' hp

lemma lexLe_cons_same (x : ℕ) (u v : List ℕ) : lexLe (x :: u) (x :: v) = lexLe u v := by
  simp only [lexLe, lexLt_cons_same]
  congr 1
  rw [Bool.eq_iff_iff]
  simp [beq_iff_eq]

lemma dyckGo_min (s : List ℕ) : ∀ h, dyckGo h s = true →
    lexLe (List.replicate h 0 ++ upDowns ((s.length - h) / 2)) s = true := by
  induction s with
  | nil =>
      intro h hd
      simp [dyckGo] at hd
      subst hd
      simp [upDowns, lexLe, lexLt]
  | cons op s ih =>
      intro h hd
      by_cases h1 : op = 1
      · subst h1
        simp only [dyckGo, if_pos rfl] at hd
        cases h with
        | zero =>
            have hne : s ≠ [] := by intro he; subst he; simp [dyckGo] at hd
            have hlen : 1 ≤ s.length := List.length_pos.mpr hne
            simp only [List.length_cons, Nat.sub_zero, List.replicate_zero, List.nil_append]
            have harg : (s.length + 1) / 2 = (s.length - 1) / 2 + 1 := by omega
            rw [harg, upDowns_succ, lexLe_cons_same]
            have := ih 1 hd
            simpa using this
        | succ h' =>
            apply lexLe_of_lt
            rw [List.replicate_succ, List.cons_append]
            simp [lexLt]
      · by_cases h0 : op = 0
        · subst h0
          cases h with
          | zero => simp [dyckGo] at hd
          | succ h' =>
              have hd' : dyckGo h' s = true := by simpa [dyckGo] using hd
              simp only [List.length_cons]
              have harg : s.length + 1 - (h' + 1) = s.length - h' := by omega
              rw [harg, List.replicate_succ, List.cons_append, lexLe_cons_same]
              exact ih h' hd'
        · simp [dyckGo, h1, h0] at hd

lemma dyckGo_max (s : List ℕ) : ∀ h, dyckGo h s = true →
    lexLe s (List.replicate ((s.length - h) / 2) 1
      ++ List.replicate ((s.length + h) / 2) 0) = true := by
  induction s with
  | nil =>
      intro h hd
      simp [dyckGo] at hd
      subst hd
      simp [lexLe, lexLt]
  | cons op s ih =>
      intro h hd
      by_cases h1 : op = 1
      · subst h1
        simp only [dyckGo, if_pos rfl] at hd
        have hha := (heightAfter_iff_dyckGo s (h + 1)).mp hd
        have hlen := heightAfter_le_length s (h + 1) 0 hha
        have hpar := heightAfter_parity s (h + 1) 0 hha
        simp only [List.length_cons]
        have ha1 : (s.length + 1 - h) / 2 = (s.length - (h + 1)) / 2 + 1 := by omega
        have hb1 : (s.length + 1 + h) / 2 = (s.length + (h + 1)) / 2 := by omega
        rw [ha1, hb1, List.replicate_succ, List.cons_append, lexLe_cons_same]
        exact ih (h + 1) hd
      · by_cases h0 : op = 0
        · subst h0
          cases h with
          | zero => simp [dyckGo] at hd
          | succ h'' =>
              have hd' : dyckGo h'' s = true := by simpa [dyckGo] using hd
              have hha := (heightAfter_iff_dyckGo s h'').mp hd'
              have hlen := heightAfter_le_length s h'' 0 hha
              have hpar := heightAfter_parity s h'' 0 hha
              simp only [List.length_cons]
              by_cases hcase : (s.length + 1 - (h'' + 1)) / 2 = 0
              · have hsl : s.length = h'' := by omega
                have hs := heightAfter_all_zero s h'' hha hsl
                have hb : (s.length + 1 + (h'' + 1)) / 2 = h'' + 1 := by omega
                rw [hcase, hb, hs]
                simp only [List.replicate_zero, List.nil_append, List.replicate_succ]
                exact lexLe_refl _
              · obtain ⟨a', ha'⟩ : ∃ a', (s.length + 1 - (h'' + 1)) / 2 = a' + 1 :=
                  ⟨(s.length + 1 - (h'' + 1)) / 2 - 1, by omega⟩
                rw [ha', List.replicate_succ, List.cons_append]
                apply lexLe_of_lt
                simp [lexLt]
        · simp [dyckGo, h1, h0] at hd

lemma dyck_min_le (u : List ℕ) (hu : isDyck u = true) :
    lexLe (upDowns (u.length / 2)) u = true := by
  have := dyckGo_min u 0 hu
  simpa using this

lemma dyck_le_max (u : List ℕ) (hu : isDyck u = true) :
    lexLe u (List.replicate (u.length / 2) 1 ++ List.replicate (u.length / 2) 0)
      = true := by
  have := dyckGo_max u 0 hu
  simpa using this

lemma upDowns_zero : upDowns 0 = [] := rfl

lemma semba_guard (p : List ℕ) (t : ℕ) (X : List ℕ) :
    (p ++ (List.replicate (t + 1) 1 ++ X)).getD (p.length + t) 0 = 1 := by
  rw [getD_append_right']
  rw [getD_append_left _ _ _ _ (by simp only [List.length_replicate]; omega)]
  exact getD_replicate (t + 1) t 1 0 (by omega)

lemma semba_set_one (p : List ℕ) (t g : ℕ) (T : List ℕ) :
    (p ++ (List.replicate (t + 1) 1 ++ (List.replicate g 0 ++ T))).set (p.length + t) 0
      = p ++ (List.replicate t 1 ++ (List.replicate (g + 1) 0 ++ T)) := by
  rw [set_append_right]
  congr 1
  rw [set_append_left _ _ _ _ (by simp only [List.length_replicate]; omega),
    set_replicate _ _ _ _ (by omega)]
  have h0 : t + 1 - t - 1 = 0 := by omega
  rw [h0]
  simp [List.replicate_succ, List.append_assoc]

lemma semba_set_two (p : List ℕ) (t g : ℕ) (T : List ℕ) (hg : 1 ≤ g) :
    (p ++ (List.replicate t 1 ++ (List.replicate (g + 1) 0 ++ T))).set
        (p.length + t + g - 1) 1
      = p ++ (List.replicate t 1 ++ (List.replicate (g - 1) 0 ++ (1 :: 0 :: T))) := by
  have hidx : p.length + t + g - 1 = p.length + (t + (g - 1)) := by omega
  rw [hidx, set_append_right]
  congr 1
  have hidx2 : t + (g - 1) = (List.replicate t 1).length + (g - 1) := by
    simp only [List.length_replicate]
  rw [hidx2, set_append_right]
  congr 1
  rw [set_append_left _ _ _ _ (by simp only [List.length_replicate]; omega),
    set_replicate _ _ _ _ (by omega)]
  have h1 : g + 1 - (g - 1) - 1 = 1 := by omega
  rw [h1]
  simp [List.append_assoc, List.replicate_one]

lemma walk_spec (t : ℕ) : ∀ (p : List ℕ) (g : ℕ) (T : List ℕ),
    p ≠ [] → p.getD (p.length - 1) 0 ≠ 1 → t + 1 ≤ g →
    walk (p ++ (List.replicate t 1 ++ (List.replicate g 0 ++ T)))
      (p.length + t - 1) (p.length + t + g - 2)
    = (p ++ (List.replicate (g - t) 0 ++ (upDowns t ++ T)), p.length - 1) := by
  induction t with
  | zero =>
      intro p g T hp hlast _
      simp only [List.replicate_zero, List.nil_append, Nat.add_zero, Nat.sub_zero,
        upDowns_zero]
      cases p with
      | nil => exact absurd rfl hp
      | cons x p' =>
          cases p' with
          | nil => rfl
          | cons y p'' =>
              simp only [List.length_cons, Nat.add_sub_cancel]
              have hgd : ((x :: y :: p'') ++ (List.replicate g 0 ++ T)).getD
                  (p''.length + 1) 0 ≠ 1 := by
                rw [getD_append_left _ _ _ _ (by simp only [List.length_cons]; omega)]
                simpa using hlast
              rw [walk, if_neg hgd]
  | succ t' ih =>
      intro p g T hp hlast hg
      cases p with
      | nil => exact absurd rfl hp
      | cons x p' =>
          have hj : (x :: p').length + (t' + 1) - 1 = (p'.length + t') + 1 := by
            simp only [List.length_cons]; omega
          have h2 : (x :: p').length + t' = (p'.length + t') + 1 := by
            simp only [List.length_cons]; omega
          have hguard := semba_guard (x :: p') t' (List.replicate g 0 ++ T)
          rw [h2] at hguard
          rw [hj, walk, if_pos hguard]
          have hset1 := semba_set_one (x :: p') t' g T
          rw [h2] at hset1
          rw [hset1]
          have hk : (x :: p').length + (t' + 1) + g - 2 = (x :: p').length + t' + g - 1 := by
            simp only [List.length_cons]; omega
          rw [hk, semba_set_two (x :: p') t' g T (by omega)]
          have hih := ih (x :: p') (g - 1) (1 :: 0 :: T) (by simp)
            hlast (by omega)
          have h3 : (x :: p').length + t' - 1 = p'.length + t' := by
            simp only [List.length_cons]; omega
          have h4 : (x :: p').length + t' + (g - 1) - 2
              = (x :: p').length + t' + g - 1 - 2 := by
            simp only [List.length_cons]; omega
          rw [h3, h4] at hih
          rw [hih]
          have hz : g - 1 - t' = g - (t' + 1) := by omega
          have hud : upDowns t' ++ (1 :: 0 :: T) = upDowns (t' + 1) ++ T := by
            rw [upDowns_succ' t', List.append_assoc]
            rfl
          rw [hz, hud]

lemma sembaStep_flip (n : ℕ) (Q : List ℕ) (z : ℕ) :
    sembaStep n (Q ++ (0 :: (1 :: List.replicate z 0))) (Q.length + 1)
      = some (Q ++ (1 :: List.replicate (z + 1) 0), Q.length) := by
  have hset : (Q ++ (0 :: (1 :: List.replicate z 0))).set (Q.length + 1) 0
      = Q ++ (0 :: (0 :: List.replicate z 0)) := by
    have h := set_append_right Q (0 :: (1 :: List.replicate z 0)) 1 0
    simpa using h
  have hguard : (Q ++ (0 :: (0 :: List.replicate z 0))).getD (Q.length + 1 - 1) 0 = 0 := by
    simp only [Nat.add_sub_cancel]
    have h := getD_append_right' Q (0 :: (0 :: List.replicate z 0)) 0 0
    simpa using h
  have hset2 : (Q ++ (0 :: (0 :: List.replicate z 0))).set (Q.length + 1 - 1) 1
      = Q ++ (1 :: List.replicate (z + 1) 0) := by
    simp only [Nat.add_sub_cancel]
    have h := set_append_right Q (0 :: (0 :: List.replicate z 0)) 0 1
    simp only [Nat.add_zero] at h
    rw [h]
    simp [List.replicate_succ]
  simp only [sembaStep]
  rw [hset, if_pos hguard, hset2]
  simp only [Nat.add_sub_cancel]

lemma sembaStep_walk (n : ℕ) (p : List ℕ) (t z : ℕ)
    (hp : p ≠ []) (hlast : p.getD (p.length - 1) 0 ≠ 1)
    (ht : 1 ≤ t) (htz : t ≤ z) (hn : n = p.length + t + z + 1) :
    sembaStep n (p ++ (List.replicate t 1 ++ (1 :: List.replicate z 0))) (p.length + t)
      = if p.length - 1 = 0 then none
        else some (p.set (p.length - 1) 1
            ++ (List.replicate (z + 1 - t) 0 ++ upDowns t), (n - 1) - 1) := by
  have hset1 : (p ++ (List.replicate (t + 1) 1 ++ List.replicate z 0)).set (p.length + t) 0
      = p ++ (List.replicate t 1 ++ List.replicate (z + 1) 0) := by
    have h := semba_set_one p t z []
    simpa using h
  have hguard : (p ++ (List.replicate t 1 ++ List.replicate (z + 1) 0)).getD
      (p.length + t - 1) 0 = 1 := by
    rw [show p.length + t - 1 = p.length + (t - 1) from by omega, getD_append_right',
      getD_append_left _ _ _ _ (by simp only [List.length_replicate]; omega)]
    exact getD_replicate t (t - 1) 1 0 (by omega)
  have hw := walk_spec t p (z + 1) [] hp hlast (by omega)
  simp only [List.append_nil] at hw
  have hk : n - 1 - 1 = p.length + t + (z + 1) - 2 := by omega
  have hset2 : (p ++ (List.replicate (z + 1 - t) 0 ++ upDowns t)).set (p.length - 1) 1
      = p.set (p.length - 1) 1 ++ (List.replicate (z + 1 - t) 0 ++ upDowns t) :=
    set_append_left _ _ _ _ (by have := List.length_pos.mpr hp; omega)
  simp only [sembaStep]
  rw [replicate_append_cons, hset1, hguard, if_neg one_ne_zero, hk, hw]
  dsimp only
  by_cases hc : p.length - 1 = 0
  · rw [if_pos hc, if_pos hc]
  · rw [if_neg hc, if_neg hc, hset2]

lemma lexLe_append_same (r : List ℕ) : ∀ u v, lexLe (r ++ u) (r ++ v) = lexLe u v := by
  induction r with
  | nil => intro u v; rfl
  | cons x r ih =>
      intro u v
      rw [List.cons_append, List.cons_append, lexLe_cons_same, ih]

lemma split_trailing_ones (v : List ℕ) (hv : ∀ x ∈ v, x = 0 ∨ x = 1) :
    (∃ t, v = List.replicate t 1) ∨ ∃ u t, v = u ++ 0 :: List.replicate t 1 := by
  induction v with
  | nil => exact Or.inl ⟨0, rfl⟩
  | cons x v ih =>
      have hx := hv x (List.mem_cons_self x v)
      have hv' : ∀ y ∈ v, y = 0 ∨ y = 1 := fun y hy => hv y (List.mem_cons_of_mem x hy)
      rcases ih hv' with ⟨t, rfl⟩ | ⟨u, t, rfl⟩
      · rcases hx with rfl | rfl
        · exact Or.inr ⟨[], t, rfl⟩
        · exact Or.inl ⟨t + 1, by rw [List.replicate_succ]⟩
      · exact Or.inr ⟨x :: u, t, rfl⟩

lemma split_zeros (r : List ℕ) : ∀ (z : ℕ) (w₁ : List ℕ),
    r ++ 0 :: w₁ = List.replicate z 0 →
    ∃ j, j < z ∧ r = List.replicate j 0 ∧ w₁ = List.replicate (z - j - 1) 0 := by
  induction r with
  | nil =>
      intro z w₁ h
      cases z with
      | zero => simp at h
      | succ z' =>
          rw [List.replicate_succ] at h
          simp only [List.nil_append, List.cons.injEq] at h
          refine ⟨0, by omega, rfl, ?_⟩
          rw [show z' + 1 - 0 - 1 = z' from by omega]
          exact h.2
  | cons c r' ih =>
      intro z w₁ h
      cases z with
      | zero => simp at h
      | succ z' =>
          rw [List.replicate_succ] at h
          simp only [List.cons_append, List.cons.injEq] at h
          obtain ⟨j, hj, hr, hw⟩ := ih z' w₁ h.2
          refine ⟨j + 1, by omega, by rw [h.1, hr, List.replicate_succ], ?_⟩
          rw [hw]
          congr 1
          omega

lemma split_ones_zeros (k : ℕ) : ∀ (z : ℕ) (r w₁ : List ℕ),
    r ++ 0 :: w₁ = List.replicate k 1 ++ List.replicate z 0 →
    ∃ j, j < z ∧ r = List.replicate k 1 ++ List.replicate j 0
      ∧ w₁ = List.replicate (z - j - 1) 0 := by
  induction k with
  | zero =>
      intro z r w₁ h
      simp only [List.replicate_zero, List.nil_append] at h
      obtain ⟨j, hj, hr, hw⟩ := split_zeros r z w₁ h
      exact ⟨j, hj, by simp [hr], hw⟩
  | succ k' ih =>
      intro z r w₁ h
      cases r with
      | nil =>
          rw [List.replicate_succ] at h
          simp at h
      | cons c r'' =>
          rw [List.replicate_succ] at h
          simp only [List.cons_append, List.cons.injEq] at h
          obtain ⟨j, hj, hr, hw⟩ := ih z r'' w₁ h.2
          exact ⟨j, hj, by rw [h.1, hr, List.replicate_succ]; rfl, hw⟩

lemma decomp_heights (u : List ℕ) (t z : ℕ)
    (hd : isDyck (u ++ (0 :: (List.replicate t 1 ++ (1 :: List.replicate z 0)))) = true) :
    ∃ h, heightAfter 0 u = some h ∧ 1 ≤ h ∧ z = h + t := by
  rw [isDyck, heightAfter_iff_dyckGo, heightAfter_append] at hd
  cases hu : heightAfter 0 u with
  | none => rw [hu] at hd; simp at hd
  | some h =>
      rw [hu, Option.some_bind] at hd
      cases h with
      | zero => simp [heightAfter] at hd
      | succ h' =>
          rw [show heightAfter (h' + 1) (0 :: (List.replicate t 1 ++ (1 :: List.replicate z 0)))
              = heightAfter h' (List.replicate t 1 ++ (1 :: List.replicate z 0)) from by
            simp [heightAfter]] at hd
          rw [heightAfter_append, heightAfter_replicate_one, Option.some_bind] at hd
          rw [show heightAfter (h' + t) (1 :: List.replicate z 0)
              = heightAfter (h' + t + 1) (List.replicate z 0) from by simp [heightAfter]] at hd
          rw [heightAfter_replicate_zero] at hd
          by_cases hz : z ≤ h' + t + 1
          · rw [if_pos hz] at hd
            simp only [Option.some.injEq] at hd
            exact ⟨h' + 1, rfl, by omega, by omega⟩
          · rw [if_neg hz] at hd
            simp at hd

lemma succ_dyck (u : List ℕ) (t z h : ℕ)
    (hh : heightAfter 0 u = some h) (hz : z = h + t) :
    isDyck (u ++ (1 :: (List.replicate (z + 1 - t) 0 ++ upDowns t))) = true := by
  rw [isDyck, heightAfter_iff_dyckGo, heightAfter_append, hh, Option.some_bind]
  rw [show heightAfter h (1 :: (List.replicate (z + 1 - t) 0 ++ upDowns t))
      = heightAfter (h + 1) (List.replicate (z + 1 - t) 0 ++ upDowns t) from by
    simp [heightAfter]]
  rw [heightAfter_append, heightAfter_replicate_zero, if_pos (by omega)]
  rw [show h + 1 - (z + 1 - t) = 0 from by omega, Option.some_bind, heightAfter_upDowns]

lemma succ_lt (u : List ℕ) (A B : List ℕ) :
    lexLt (u ++ (0 :: A)) (u ++ (1 :: B)) = true := by
  rw [lexLt_append_same]
  simp [lexLt]

lemma succ_min (u : List ℕ) (t z h : ℕ)
    (hh : heightAfter 0 u = some h) (hh1 : 1 ≤ h) (hz : z = h + t)
    (x : List ℕ) (hx : isDyck x = true)
    (hlen : x.length = u.length + t + z + 2)
    (hlt : lexLt (u ++ (0 :: (List.replicate t 1 ++ (1 :: List.replicate z 0)))) x = true) :
    lexLe (u ++ (1 :: (List.replicate (z + 1 - t) 0 ++ upDowns t))) x = true := by
  have hwlen : (u ++ (0 :: (List.replicate t 1 ++ (1 :: List.replicate z 0)))).length
      = u.length + t + z + 2 := by
    simp only [List.length_append, List.length_cons, List.length_replicate]
    omega
  obtain ⟨r, a, b, w₁, x₁, hw, hxeq, hab⟩ :=
    lexLt_exists_split _ x (by rw [hwlen, hlen]) hlt
  have hxent : ∀ y ∈ x, y = 0 ∨ y = 1 :=
    heightAfter_entries x 0 0 ((heightAfter_iff_dyckGo x 0).mp hx)
  have hb : b = 1 := by
    have hbx : b ∈ x := by rw [hxeq]; simp
    rcases hxent b hbx with rfl | rfl
    · omega
    · rfl
  subst hb
  have ha : a = 0 := by omega
  subst ha
  rcases Nat.lt_trichotomy r.length u.length with hcmp | hcmp | hcmp
  · obtain ⟨p', hp'⟩ := prefix_extend r 0 w₁ u
      (0 :: (List.replicate t 1 ++ (1 :: List.replicate z 0))) hw.symm hcmp
    rw [hxeq, hp', List.append_assoc, List.cons_append]
    apply lexLe_of_lt
    rw [lexLt_append_same]
    simp [lexLt]
  · obtain ⟨hur, htail⟩ := List.append_inj hw hcmp.symm
    subst hur
    have hx' : heightAfter (h + 1) x₁ = some 0 := by
      have hd := (heightAfter_iff_dyckGo x 0).mp hx
      rw [hxeq, heightAfter_append, hh, Option.some_bind] at hd
      simpa [heightAfter] using hd
    have hx1len : x₁.length = t + z + 1 := by
      have hc := congrArg List.length hxeq
      simp only [List.length_append, List.length_cons] at hc
      omega
    have hmin := dyckGo_min x₁ (h + 1) ((heightAfter_iff_dyckGo x₁ (h + 1)).mpr hx')
    rw [hx1len] at hmin
    have harg : (t + z + 1 - (h + 1)) / 2 = t := by omega
    rw [harg] at hmin
    have hrep : List.replicate (h + 1) 0 = List.replicate (z + 1 - t) 0 := by
      congr 1
      omega
    rw [hrep] at hmin
    rw [hxeq, lexLe_append_same, lexLe_cons_same]
    exact hmin
  · exfalso
    obtain ⟨h', rfl⟩ : ∃ h', h = h' + 1 := ⟨h - 1, by omega⟩
    obtain ⟨r', hr'⟩ := prefix_extend u 0
      (List.replicate t 1 ++ (1 :: List.replicate z 0)) r (0 :: w₁) hw hcmp
    have hs : r' ++ 0 :: w₁ = List.replicate (t + 1) 1 ++ List.replicate z 0 := by
      rw [hr', List.append_assoc, List.cons_append] at hw
      have h2 := List.append_cancel_left hw
      simp only [List.cons.injEq, true_and] at h2
      rw [← h2]
      exact replicate_append_cons t 1 _
    obtain ⟨j, hjz, hrr, hww⟩ := split_ones_zeros (t + 1) z r' w₁ hs
    have hhr : heightAfter 0 r = some (h' + t + 1 - j) := by
      rw [hr', hrr, heightAfter_append, hh, Option.some_bind]
      rw [show heightAfter (h' + 1)
          (0 :: (List.replicate (t + 1) 1 ++ List.replicate j 0))
          = heightAfter h' (List.replicate (t + 1) 1 ++ List.replicate j 0) from by
        simp [heightAfter]]
      rw [heightAfter_append, heightAfter_replicate_one, Option.some_bind,
        heightAfter_replicate_zero, if_pos (by omega)]
      congr 1
    have hx1 : heightAfter (h' + t + 1 - j + 1) x₁ = some 0 := by
      have hd := (heightAfter_iff_dyckGo x 0).mp hx
      rw [hxeq, heightAfter_append, hhr, Option.some_bind] at hd
      simpa [heightAfter] using hd
    have hle := heightAfter_le_length x₁ _ 0 hx1
    have hrl : r.length = u.length + t + j + 2 := by
      rw [hr', hrr]
      simp only [List.length_append, List.length_cons, List.length_replicate]
      omega
    have hxl : x.length = r.length + 1 + x₁.length := by
      rw [hxeq]
      simp only [List.length_append, List.length_cons]
      omega
    omega

lemma sembaRun_succ_none (n f : ℕ) (curr : List ℕ) (m : ℕ)
    (h : sembaStep n curr m = none) :
    sembaRun n (f + 1) curr m = [curr.drop 1 ++ [0]] := by
  rw [sembaRun, h]

lemma sembaRun_succ_some (n f : ℕ) (curr : List ℕ) (m : ℕ) (c' : List ℕ) (m' : ℕ)
    (h : sembaStep n curr m = some (c', m')) :
    sembaRun n (f + 1) curr m = (curr.drop 1 ++ [0]) :: sembaRun n f c' m' := by
  rw [sembaRun, h]

lemma max_word_top (q : ℕ) (x : List ℕ) (hx : isDyck x = true)
    (hlen : x.length = 2 * q) :
    lexLe x (List.replicate q 1 ++ List.replicate q 0) = true := by
  have h := dyck_le_max x hx
  rw [hlen, show 2 * q / 2 = q from by omega] at h
  exact h

lemma filter_lt_max_nil (q : ℕ) :
    (allB (2 * q)).filter
      (fun y => isDyck y && lexLt (List.replicate q 1 ++ List.replicate q 0) y) = [] := by
  rw [List.filter_eq_nil_iff]
  intro y hy
  simp only [Bool.and_eq_true, not_and]
  intro hdy hlt
  have hle := max_word_top q y hdy ((mem_allB _ y).mp hy).1
  have hc := lexLt_of_lt_of_le hlt hle
  rw [lexLt_irrefl] at hc
  exact absurd hc (by simp)

lemma allDyckGE_cons (w : List ℕ) (hw : isDyck w = true)
    (hent : ∀ x ∈ w, x = 0 ∨ x = 1) :
    allDyckGE w = w :: (allB w.length).filter (fun y => isDyck y && lexLt w y) :=
  filter_ge_cons isDyck w (allB w.length) (allB_pairwise _)
    ((mem_allB _ w).mpr ⟨rfl, hent⟩) hw

lemma filter_succ_congr (u : List ℕ) (t z h : ℕ)
    (hh : heightAfter 0 u = some h) (hh1 : 1 ≤ h) (hz : z = h + t) :
    (allB ((u ++ (0 :: (List.replicate t 1 ++ (1 :: List.replicate z 0)))).length)).filter
        (fun y => isDyck y
          && lexLt (u ++ (0 :: (List.replicate t 1 ++ (1 :: List.replicate z 0)))) y)
      = allDyckGE (u ++ (1 :: (List.replicate (z + 1 - t) 0 ++ upDowns t))) := by
  unfold allDyckGE
  have hlen1 : (u ++ (0 :: (List.replicate t 1 ++ (1 :: List.replicate z 0)))).length
      = u.length + t + z + 2 := by
    simp only [List.length_append, List.length_cons, List.length_replicate]
    omega
  have hlen2 : (u ++ (1 :: (List.replicate (z + 1 - t) 0 ++ upDowns t))).length
      = u.length + t + z + 2 := by
    simp only [List.length_append, List.length_cons, List.length_replicate, upDowns_length]
    omega
  rw [hlen1, hlen2]
  apply List.filter_congr
  intro y hy
  obtain ⟨hylen, _⟩ := (mem_allB _ y).mp hy
  cases hdy : isDyck y with
  | false => simp
  | true =>
      simp only [Bool.true_and]
      rw [Bool.eq_iff_iff]
      constructor
      · intro hlt
        exact succ_min u t z h hh hh1 hz y hdy hylen hlt
      · intro hge
        exact lexLt_of_lt_of_le (succ_lt u _ _) hge

lemma sembaRun_spec (n : ℕ) : ∀ (fuel : ℕ) (v : List ℕ) (z : ℕ),
    isDyck (v ++ 1 :: List.replicate z 0) = true →
    4 ≤ (v ++ 1 :: List.replicate z 0).length →
    (v ++ 1 :: List.replicate z 0).length + 1 = n →
    (allDyckGE (v ++ 1 :: List.replicate z 0)).length ≤ fuel →
    sembaRun n fuel (0 :: (v ++ 1 :: List.replicate z 0)) (v.length + 1)
      = (allDyckGE (v ++ 1 :: List.replicate z 0)).map (fun y => y ++ [0]) := by
  intro fuel
  induction fuel with
  | zero =>
      intro v z hdy _ _ hfuel
      exfalso
      have hent := heightAfter_entries _ 0 0 ((heightAfter_iff_dyckGo _ 0).mp hdy)
      have hmem : (v ++ 1 :: List.replicate z 0)
          ∈ allDyckGE (v ++ 1 :: List.replicate z 0) := by
        unfold allDyckGE
        rw [List.mem_filter]
        exact ⟨(mem_allB _ _).mpr ⟨rfl, hent⟩, by rw [hdy, lexLe_refl]; rfl⟩
      have hpos := List.length_pos.mpr (List.ne_nil_of_mem hmem)
      omega
  | succ f ih =>
      intro v z hdy hlen4 hlenn hfuel
      have hent := heightAfter_entries _ 0 0 ((heightAfter_iff_dyckGo _ 0).mp hdy)
      have hvent : ∀ x ∈ v, x = 0 ∨ x = 1 := fun x hx => hent x (by simp [hx])
      rcases split_trailing_ones v hvent with ⟨t', rfl⟩ | ⟨u, t, rfl⟩
      · cases t' with
        | zero =>
            exfalso
            simp only [List.replicate_zero, List.nil_append] at hdy hlen4
            rw [isDyck, heightAfter_iff_dyckGo,
              show heightAfter 0 (1 :: List.replicate z 0)
                = heightAfter 1 (List.replicate z 0) from by simp [heightAfter],
              heightAfter_replicate_zero] at hdy
            by_cases hz1 : z ≤ 1
            · rw [if_pos hz1] at hdy
              simp only [Option.some.injEq] at hdy
              simp only [List.length_cons, List.length_replicate] at hlen4
              omega
            · rw [if_neg hz1] at hdy
              simp at hdy
        | succ t'' =>
            have hcons := allDyckGE_cons _ hdy hent
            have hz : z = t'' + 2 := by
              have hd := (heightAfter_iff_dyckGo _ 0).mp hdy
              rw [heightAfter_append, heightAfter_replicate_one, Option.some_bind,
                show heightAfter (0 + (t'' + 1)) (1 :: List.replicate z 0)
                  = heightAfter (0 + (t'' + 1) + 1) (List.replicate z 0) from by
                  simp [heightAfter],
                heightAfter_replicate_zero] at hd
              by_cases hzle : z ≤ 0 + (t'' + 1) + 1
              · rw [if_pos hzle] at hd
                simp only [Option.some.injEq] at hd
                omega
              · rw [if_neg hzle] at hd
                simp at hd
            subst hz
            have hn' : n = t'' + t'' + 5 := by
              have hc := hlenn
              simp only [List.length_append, List.length_cons, List.length_replicate] at hc
              omega
            have hstep : sembaStep n
                (0 :: (List.replicate (t'' + 1) 1 ++ 1 :: List.replicate (t'' + 2) 0))
                ((List.replicate (t'' + 1) 1).length + 1) = none := by
              have h := sembaStep_walk n [0] (t'' + 1) (t'' + 2) (by simp) (by decide)
                (by omega) (by omega)
                (by simp only [List.length_cons, List.length_nil]; omega)
              rw [if_pos (by decide)] at h
              rw [show (0 :: (List.replicate (t'' + 1) 1 ++ 1 :: List.replicate (t'' + 2) 0))
                  = [0] ++ (List.replicate (t'' + 1) 1 ++ (1 :: List.replicate (t'' + 2) 0))
                  from rfl,
                show (List.replicate (t'' + 1) 1).length + 1
                    = ([0] : List ℕ).length + (t'' + 1) from by
                  simp only [List.length_replicate, List.length_cons, List.length_nil]
                  omega]
              exact h
            rw [sembaRun_succ_none n f _ _ hstep, hcons]
            have hw_eq : List.replicate (t'' + 1) 1 ++ 1 :: List.replicate (t'' + 2) 0
                = List.replicate (t'' + 2) 1 ++ List.replicate (t'' + 2) 0 :=
              replicate_append_cons _ 1 _
            rw [hw_eq]
            have hL : (List.replicate (t'' + 2) 1 ++ List.replicate (t'' + 2) 0).length
                = 2 * (t'' + 2) := by
              simp only [List.length_append, List.length_replicate]
              omega
            rw [hL, filter_lt_max_nil (t'' + 2)]
            simp
      · have hW : (u ++ 0 :: List.replicate t 1) ++ 1 :: List.replicate z 0
            = u ++ (0 :: (List.replicate t 1 ++ (1 :: List.replicate z 0))) := by
          simp
        rw [hW] at hdy hlen4 hlenn hfuel hent ⊢
        have hcons := allDyckGE_cons _ hdy hent
        obtain ⟨h, hh, hh1, hz⟩ := decomp_heights u t z hdy
        have hsd := succ_dyck u t z h hh hz
        have hfc := filter_succ_congr u t z h hh hh1 hz
        have hmeas :
            (allDyckGE (u ++ (1 :: (List.replicate (z + 1 - t) 0 ++ upDowns t)))).length + 1
            = (allDyckGE
                (u ++ (0 :: (List.replicate t 1 ++ (1 :: List.replicate z 0))))).length := by
          rw [hcons, ← hfc]
          simp
        have hlen4' : 4 ≤ u.length + t + z + 2 := by
          have hc := hlen4
          simp only [List.length_append, List.length_cons, List.length_replicate] at hc
          omega
        have hn' : n = u.length + t + z + 3 := by
          have hc := hlenn
          simp only [List.length_append, List.length_cons, List.length_replicate] at hc
          omega
        by_cases ht0 : t = 0
        · subst ht0
          simp only [List.replicate_zero, List.nil_append, upDowns_zero, List.append_nil,
            Nat.sub_zero, Nat.add_zero] at hdy hlen4 hlenn hfuel hcons hsd hfc hmeas
          simp only [Nat.add_zero] at hlen4' hn'
          simp only [List.replicate_zero, List.nil_append] at hent ⊢
          have hstep : sembaStep n (0 :: (u ++ (0 :: (1 :: List.replicate z 0))))
              ((u ++ [0]).length + 1)
              = some (0 :: (u ++ (1 :: List.replicate (z + 1) 0)), u.length + 1) := by
            have hs := sembaStep_flip n (0 :: u) z
            rw [show ((0 : ℕ) :: u) ++ (0 :: (1 :: List.replicate z 0))
                = 0 :: (u ++ (0 :: (1 :: List.replicate z 0))) from rfl] at hs
            rw [show ((0 : ℕ) :: u) ++ (1 :: List.replicate (z + 1) 0)
                = 0 :: (u ++ (1 :: List.replicate (z + 1) 0)) from rfl] at hs
            rw [show ((0 : ℕ) :: u).length + 1 = (u ++ [0]).length + 1 from by
              simp only [List.length_cons, List.length_append, List.length_nil]] at hs
            rw [show ((0 : ℕ) :: u).length = u.length + 1 from by
              simp only [List.length_cons]] at hs
            exact hs
          rw [sembaRun_succ_some n f _ _ _ _ hstep, hcons, hfc]
          have hih := ih u (z + 1) hsd
            (by
              simp only [List.length_append, List.length_cons, List.length_replicate]
              omega)
            (by
              simp only [List.length_append, List.length_cons, List.length_replicate]
              omega)
            (by omega)
          rw [hih]
          simp
        · obtain ⟨t'', rfl⟩ : ∃ t'', t = t'' + 1 := ⟨t - 1, by omega⟩
          have hstep : sembaStep n
              (0 :: (u ++ (0 :: (List.replicate (t'' + 1) 1 ++ (1 :: List.replicate z 0)))))
              ((u ++ 0 :: List.replicate (t'' + 1) 1).length + 1)
              = some (0 :: (u ++ (1 :: (List.replicate (z + 1 - (t'' + 1)) 0
                  ++ upDowns (t'' + 1)))), n - 1 - 1) := by
            have hs := sembaStep_walk n (0 :: (u ++ [0])) (t'' + 1) z (by simp)
              (by
                have hidx : (0 :: (u ++ [0])).length - 1 = u.length + 1 := by
                  simp only [List.length_cons, List.length_append, List.length_nil]
                  omega
                rw [hidx, List.getD_cons_succ]
                have h0 : (u ++ [0]).getD u.length 0 = 0 := by
                  have hgd := getD_append_right' u [0] 0 0
                  simpa using hgd
                rw [h0]
                omega)
              (by omega) (by omega)
              (by
                simp only [List.length_cons, List.length_append, List.length_nil]
                omega)
            rw [if_neg (by
              simp only [List.length_cons, List.length_append, List.length_nil]
              omega)] at hs
            have hsetp : (0 :: (u ++ [0])).set ((0 :: (u ++ [0])).length - 1) 1
                = 0 :: (u ++ [1]) := by
              have hidx : (0 :: (u ++ [0])).length - 1 = u.length + 1 := by
                simp only [List.length_cons, List.length_append, List.length_nil]
                omega
              rw [hidx, List.set_cons_succ]
              congr 1
              have hset := set_append_right u [0] 0 1
              simpa using hset
            rw [hsetp] at hs
            rw [show ((0 : ℕ) :: (u ++ [0]))
                  ++ (List.replicate (t'' + 1) 1 ++ (1 :: List.replicate z 0))
                = 0 :: (u ++ (0 :: (List.replicate (t'' + 1) 1
                  ++ (1 :: List.replicate z 0)))) from by simp] at hs
            rw [show ((0 : ℕ) :: (u ++ [1]))
                  ++ (List.replicate (z + 1 - (t'' + 1)) 0 ++ upDowns (t'' + 1))
                = 0 :: (u ++ (1 :: (List.replicate (z + 1 - (t'' + 1)) 0
                  ++ upDowns (t'' + 1)))) from by simp] at hs
            rw [show ((0 : ℕ) :: (u ++ [0])).length + (t'' + 1)
                = (u ++ 0 :: List.replicate (t'' + 1) 1).length + 1 from by
              simp only [List.length_cons, List.length_append, List.length_nil,
                List.length_replicate]
              omega] at hs
            exact hs
          rw [sembaRun_succ_some n f _ _ _ _ hstep, hcons, hfc]
          have hsplit : u ++ (1 :: (List.replicate (z + 1 - (t'' + 1)) 0 ++ upDowns (t'' + 1)))
              = (u ++ 1 :: (List.replicate (z + 1 - (t'' + 1)) 0 ++ upDowns t''))
                ++ 1 :: List.replicate 1 0 := by
            rw [upDowns_succ' t'']
            simp [List.append_assoc, List.replicate_one]
          have hvnl : (u ++ 1 :: (List.replicate (z + 1 - (t'' + 1)) 0 ++ upDowns t'')).length
              = u.length + z + t'' + 1 := by
            simp only [List.length_append, List.length_cons, List.length_replicate,
              upDowns_length]
            omega
          have hih := ih (u ++ 1 :: (List.replicate (z + 1 - (t'' + 1)) 0 ++ upDowns t'')) 1
            (by rw [← hsplit]; exact hsd)
            (by
              have hc := congrArg List.length hsplit
              simp only [List.length_append, List.length_cons, List.length_replicate,
                upDowns_length] at hc ⊢
              omega)
            (by
              have hc := congrArg List.length hsplit
              simp only [List.length_append, List.length_cons, List.length_replicate,
                upDowns_length] at hc ⊢
              omega)
            (by rw [← hsplit]; omega)
          rw [← hsplit] at hih
          rw [show n - 1 - 1
              = (u ++ 1 :: (List.replicate (z + 1 - (t'' + 1)) 0 ++ upDowns t'')).length + 1
              from by rw [hvnl]; omega]
          rw [hih]
          simp

lemma annGen_eq (n : ℕ) (hodd : n % 2 = 1) (h7 : 7 ≤ n) :
    annGen n = (allDyck (n - 1)).map (fun y => y ++ [0]) := by
  obtain ⟨q, hq⟩ : ∃ q, n = 2 * q + 1 := ⟨n / 2, by omega⟩
  unfold annGen
  rw [if_pos hodd, if_neg (by omega), if_neg (by omega)]
  have hq2 : (n - 1) / 2 = q := by omega
  rw [hq2]
  obtain ⟨q', rfl⟩ : ∃ q', q = q' + 1 := ⟨q - 1, by omega⟩
  have hud : upDowns (q' + 1) = upDowns q' ++ 1 :: List.replicate 1 0 := by
    rw [upDowns_succ']
    simp [List.replicate_one]
  have hm : n - 1 - 1 = (upDowns q').length + 1 := by
    rw [upDowns_length]
    omega
  rw [hud, hm]
  have hdy : isDyck (upDowns q' ++ 1 :: List.replicate 1 0) = true := by
    rw [← hud]
    exact isDyck_upDowns (q' + 1)
  have hrun := sembaRun_spec n (2 ^ n) (upDowns q') 1 hdy
    (by rw [← hud, upDowns_length]; omega)
    (by rw [← hud, upDowns_length]; omega)
    (by
      calc (allDyckGE (upDowns q' ++ 1 :: List.replicate 1 0)).length
          ≤ (allB ((upDowns q' ++ 1 :: List.replicate 1 0).length)).length := by
            unfold allDyckGE
            exact List.length_filter_le _ _
        _ = 2 ^ ((upDowns q' ++ 1 :: List.replicate 1 0).length) := allB_length_pow _
        _ ≤ 2 ^ n := by
            apply Nat.pow_le_pow_right (by omega)
            rw [← hud, upDowns_length]
            omega)
  rw [hrun]
  congr 1
  rw [← hud]
  unfold allDyckGE allDyck
  rw [upDowns_length, show 2 * (q' + 1) = n - 1 from by omega]
  apply List.filter_congr
  intro y hy
  cases hdy2 : isDyck y with
  | false => simp [hdy2]
  | true =>
      simp only [hdy2, Bool.true_and]
      have hylen := ((mem_allB _ y).mp hy).1
      have hmin := dyck_min_le y hdy2
      rw [hylen, show (n - 1) / 2 = q' + 1 from by omega] at hmin
      exact hmin

lemma split_at_return : ∀ (N : ℕ) (w : List ℕ) (h : ℕ), w.length ≤ N →
    heightAfter (h + 1) w = some 0 →
    ∃ u v, w = u ++ 0 :: v ∧ isDyck u = true ∧ heightAfter h v = some 0 := by
  intro N
  induction N with
  | zero =>
      intro w h hlen hh
      cases w with
      | nil => simp [heightAfter] at hh
      | cons op w' => simp at hlen
  | succ N ihN =>
      intro w h hlen hh
      cases w with
      | nil => simp [heightAfter] at hh
      | cons op w' =>
          by_cases h1 : op = 1
          · subst h1
            simp only [heightAfter, if_pos rfl] at hh
            obtain ⟨u', v', rfl, hu', hv'⟩ := ihN w' (h + 1) (by simp at hlen; omega) hh
            have hv'len : v'.length ≤ N := by
              simp only [List.length_cons, List.length_append] at hlen
              omega
            obtain ⟨u'', v'', rfl, hu'', hv''⟩ := ihN v' h hv'len hv'
            refine ⟨1 :: (u' ++ 0 :: u''), v'', by simp, ?_, hv''⟩
            rw [isDyck, heightAfter_iff_dyckGo,
              show heightAfter 0 (1 :: (u' ++ 0 :: u''))
                = heightAfter 1 (u' ++ 0 :: u'') from by simp [heightAfter],
              heightAfter_append, heightAfter_of_dyck u' hu', Option.some_bind,
              show heightAfter 1 (0 :: u'') = heightAfter 0 u'' from by simp [heightAfter]]
            exact (heightAfter_iff_dyckGo u'' 0).mp hu''
          · by_cases h0 : op = 0
            · subst h0
              simp only [heightAfter] at hh
              exact ⟨[], w', rfl, rfl, hh⟩
            · simp [heightAfter, h1, h0] at hh

lemma genDyck_mem : ∀ (q : ℕ) (w : List ℕ),
    w ∈ genDyck q ↔ (isDyck w = true ∧ w.length = 2 * q) := by
  intro q
  induction q using Nat.strong_induction_on with
  | _ q ihq =>
      intro w
      cases q with
      | zero =>
          simp only [genDyck, List.mem_singleton]
          constructor
          · intro hw
            subst hw
            exact ⟨rfl, rfl⟩
          · intro ⟨_, hl⟩
            cases w with
            | nil => rfl
            | cons a l => simp at hl
      | succ q' =>
          rw [genDyck]
          constructor
          · intro hw
            simp only [List.mem_flatMap, List.mem_map, List.mem_attach, true_and] at hw
            obtain ⟨i, u, hu, v, hv, heq⟩ := hw
            have hi : i.1 < q' + 1 := List.mem_range.mp i.2
            obtain ⟨hdu, hlu⟩ := (ihq i.1 (by omega) u).mp hu
            obtain ⟨hdv, hlv⟩ := (ihq (q' - i.1) (by omega) v).mp hv
            subst heq
            constructor
            · rw [isDyck, heightAfter_iff_dyckGo,
                show heightAfter 0 (1 :: (u ++ 0 :: v))
                  = heightAfter 1 (u ++ 0 :: v) from by simp [heightAfter],
                heightAfter_append, heightAfter_of_dyck u hdu, Option.some_bind,
                show heightAfter 1 (0 :: v) = heightAfter 0 v from by simp [heightAfter]]
              exact (heightAfter_iff_dyckGo v 0).mp hdv
            · simp only [List.length_cons, List.length_append]
              omega
          · intro ⟨hd, hl⟩
            cases w with
            | nil => simp at hl
            | cons op w' =>
                by_cases h1 : op = 1
                · subst h1
                  have hh : heightAfter (0 + 1) w' = some 0 := by
                    rw [← heightAfter_iff_dyckGo]
                    exact hd
                  obtain ⟨u, v, rfl, hu, hv⟩ :=
                    split_at_return w'.length w' 0 (le_refl _) hh
                  have hpar := heightAfter_parity u 0 0
                    ((heightAfter_iff_dyckGo u 0).mp hu)
                  obtain ⟨iu, hiu⟩ : ∃ iu, u.length = 2 * iu := ⟨u.length / 2, by omega⟩
                  have hlv : v.length = 2 * (q' - iu) := by
                    simp only [List.length_cons, List.length_append] at hl
                    omega
                  have hiu' : iu < q' + 1 := by
                    simp only [List.length_cons, List.length_append] at hl
                    omega
                  simp only [List.mem_flatMap, List.mem_map, List.mem_attach, true_and]
                  refine ⟨⟨iu, List.mem_range.mpr hiu'⟩, u,
                    (ihq iu (by omega) u).mpr ⟨hu, hiu⟩, v,
                    (ihq (q' - iu) (by omega) v).mpr
                      ⟨(heightAfter_iff_dyckGo v 0).mpr hv, hlv⟩, rfl⟩
                · by_cases h0 : op = 0
                  · subst h0
                    simp [isDyck, dyckGo] at hd
                  · simp [isDyck, dyckGo, h1, h0] at hd

lemma dyck_split_unique (u₁ v₁ u₂ v₂ : List ℕ)
    (h1 : isDyck u₁ = true) (h2 : isDyck u₂ = true)
    (he : u₁ ++ 0 :: v₁ = u₂ ++ 0 :: v₂) : u₁ = u₂ ∧ v₁ = v₂ := by
  rcases Nat.lt_trichotomy u₁.length u₂.length with hc | hc | hc
  · exfalso
    obtain ⟨m, hm⟩ := prefix_extend u₁ 0 v₁ u₂ (0 :: v₂) he hc
    rw [isDyck, heightAfter_iff_dyckGo] at h1 h2
    rw [hm, heightAfter_append, h1, Option.some_bind] at h2
    simp [heightAfter] at h2
  · have h := List.append_inj he hc
    simp only [List.cons.injEq, true_and] at h
    exact ⟨h.1, h.2⟩
  · exfalso
    obtain ⟨m, hm⟩ := prefix_extend u₂ 0 v₂ u₁ (0 :: v₁) he.symm hc
    rw [isDyck, heightAfter_iff_dyckGo] at h1 h2
    rw [hm, heightAfter_append, h2, Option.some_bind] at h1
    simp [heightAfter] at h1

lemma genDyck_nodup : ∀ q, (genDyck q).Nodup := by
  intro q
  induction q using Nat.strong_induction_on with
  | _ q ihq =>
      cases q with
      | zero => simp [genDyck]
      | succ q' =>
          rw [genDyck, List.nodup_flatMap]
          constructor
          · intro i _
            have hi := List.mem_range.mp i.2
            rw [List.nodup_flatMap]
            constructor
            · intro u _
              refine List.Nodup.map ?_ (ihq (q' - i.1) (by omega))
              intro v v' hvv
              simp only [List.cons.injEq, true_and] at hvv
              have := List.append_cancel_left hvv
              simpa using this
            · refine List.Pairwise.imp_of_mem ?_ (ihq i.1 (by omega))
              intro a b ha hb hne
              intro y hy hy'
              simp only [List.mem_map] at hy hy'
              obtain ⟨v, _, rfl⟩ := hy
              obtain ⟨v', _, heq⟩ := hy'
              have hda := ((genDyck_mem i.1 a).mp ha).1
              have hdb := ((genDyck_mem i.1 b).mp hb).1
              simp only [List.cons.injEq, true_and] at heq
              exact hne (dyck_split_unique b v' a v hdb hda heq).1.symm
          · have hnd : ((List.range (q' + 1)).attach).Nodup :=
              List.nodup_attach.mpr (List.nodup_range _)
            refine List.Pairwise.imp ?_ hnd
            intro a b hne
            intro y hy hy'
            simp only [List.mem_flatMap, List.mem_map] at hy hy'
            obtain ⟨u, hu, v, hv, rfl⟩ := hy
            obtain ⟨u', hu', v', hv', heq⟩ := hy'
            have hda := ((genDyck_mem a.1 u).mp hu).1
            have hdb := ((genDyck_mem b.1 u').mp hu').1
            have hla := ((genDyck_mem a.1 u).mp hu).2
            have hlb := ((genDyck_mem b.1 u').mp hu').2
            simp only [List.cons.injEq, true_and] at heq
            have hsame := (dyck_split_unique u' v' u v hdb hda heq).1
            have hll : u'.length = u.length := by rw [hsame]
            apply hne
            apply Subtype.ext
            omega

lemma list_sum_range (f : ℕ → ℕ) : ∀ n, ((List.range n).map f).sum = ∑ i ∈ Finset.range n, f i := by
  intro n
  induction n with
  | zero => simp
  | succ n ih =>
      rw [List.range_succ, List.map_append, List.sum_append, Finset.sum_range_succ, ih]
      simp

lemma length_flatMap_attach (q' : ℕ) (G : ℕ → List (List ℕ)) :
    ((List.range (q' + 1)).attach.flatMap fun i => G i.1).length
      = ∑ m ∈ Finset.range (q' + 1), (G m).length := by
  rw [List.length_flatMap]
  have h1 : List.map (List.length ∘ fun i : {x // x ∈ List.range (q' + 1)} => G i.1)
        ((List.range (q' + 1)).attach)
      = List.map (fun m => (G m).length) (List.range (q' + 1)) := by
    rw [show (List.length ∘ fun i : {x // x ∈ List.range (q' + 1)} => G i.1)
        = (fun i : {x // x ∈ List.range (q' + 1)} => (fun m => (G m).length) i.1) from rfl]
    exact List.attach_map_val (List.range (q' + 1)) (fun m => (G m).length)
  rw [h1]
  exact list_sum_range _ _

lemma genDyck_length : ∀ q, (genDyck q).length = catalan q := by
  intro q
  induction q using Nat.strong_induction_on with
  | _ q ihq =>
      cases q with
      | zero =>
          rw [catalan_zero, genDyck]
          rfl
      | succ q' =>
          rw [genDyck, catalan_succ]
          rw [show (∑ i : Fin q'.succ, catalan (i : ℕ) * catalan (q' - (i : ℕ)))
              = ∑ m ∈ Finset.range (q' + 1), catalan m * catalan (q' - m) from
            Fin.sum_univ_eq_sum_range (fun m => catalan m * catalan (q' - m)) (q' + 1)]
          refine (length_flatMap_attach q'
            (fun m => (genDyck m).flatMap
              fun u => (genDyck (q' - m)).map fun v => 1 :: (u ++ 0 :: v))).trans ?_
          apply Finset.sum_congr rfl
          intro m hm
          have hm' : m < q' + 1 := Finset.mem_range.mp hm
          rw [List.length_flatMap]
          have h2 : List.map (List.length ∘ fun u =>
                (genDyck (q' - m)).map fun v => 1 :: (u ++ 0 :: v)) (genDyck m)
              = List.map (Function.const (List ℕ) ((genDyck (q' - m)).length)) (genDyck m) := by
            apply List.map_congr_left
            intro u _
            simp [Function.comp, List.length_map, Function.const]
          rw [h2, List.map_const, List.sum_replicate, smul_eq_mul,
            ihq m (by omega), ihq (q' - m) (by omega)]

lemma allDyck_length_catalan (q : ℕ) : (allDyck (2 * q)).length = catalan q := by
  have hperm : (allDyck (2 * q)).Perm (genDyck q) := by
    have hnd : (allDyck (2 * q)).Nodup := by
      unfold allDyck
      exact (allB_nodup _).filter _
    rw [List.perm_ext_iff_of_nodup hnd (genDyck_nodup q)]
    intro y
    rw [genDyck_mem]
    unfold allDyck
    rw [List.mem_filter, mem_allB]
    constructor
    · rintro ⟨⟨hlen, _⟩, hd⟩
      exact ⟨hd, hlen⟩
    · rintro ⟨hd, hlen⟩
      exact ⟨⟨hlen, heightAfter_entries y 0 0 ((heightAfter_iff_dyckGo y 0).mp hd)⟩, hd⟩
  rw [hperm.length_eq, genDyck_length]

lemma countsFrom_nil (h : ℤ) : countsFrom h [] = [h] := rfl

lemma countsFrom_cons (h : ℤ) (op : ℕ) (l : List ℕ) :
    countsFrom h (op :: l) = h :: countsFrom (if op = 0 then h - 1 else h + 1) l := rfl

lemma countsFrom_ne_nil (h : ℤ) (l : List ℕ) : countsFrom h l ≠ [] := by
  cases l <;> simp [countsFrom_nil, countsFrom_cons]

lemma dropLast_cons_ne (a : ℤ) (l : List ℤ) (h : l ≠ []) :
    (a :: l).dropLast = a :: l.dropLast := by
  cases l with
  | nil => exact absurd rfl h
  | cons b l' => rfl

lemma getLast?_cons_ne (a : ℤ) (l : List ℤ) (h : l ≠ []) :
    (a :: l).getLast? = l.getLast? := by
  cases l with
  | nil => exact absurd rfl h
  | cons b l' => exact List.getLast?_cons_cons

lemma head_mem_dropLast (c : ℤ) (l : List ℕ) :
    c ∈ (countsFrom c (l ++ [0])).dropLast := by
  cases l with
  | nil =>
      rw [List.nil_append, countsFrom_cons, countsFrom_nil]
      simp
  | cons x rest =>
      rw [List.cons_append, countsFrom_cons,
        dropLast_cons_ne _ _ (countsFrom_ne_nil _ _)]
      exact List.mem_cons_self _ _

lemma counts_tail_dyck (wt : List ℕ) : ∀ (k : ℕ),
    heightAfter k wt = some 0 →
    (∀ c ∈ countsFrom ((k : ℤ) + 1) (wt ++ [0]), 0 ≤ c)
    ∧ (∀ c ∈ (countsFrom ((k : ℤ) + 1) (wt ++ [0])).dropLast, 1 ≤ c)
    ∧ (countsFrom ((k : ℤ) + 1) (wt ++ [0])).getLast? = some 0 := by
  induction wt with
  | nil =>
      intro k hk
      simp only [heightAfter, Option.some.injEq] at hk
      subst hk
      rw [List.nil_append, countsFrom_cons, countsFrom_nil]
      refine ⟨?_, ?_, ?_⟩
      · intro c hc
        simp at hc
        rcases hc with rfl | rfl <;> norm_num
      · intro c hc
        simp at hc
        subst hc
        norm_num
      · simp
  | cons op wt' ih =>
      intro k hk
      by_cases h1 : op = 1
      · subst h1
        simp only [heightAfter, if_pos rfl] at hk
        obtain ⟨ih1, ih2, ih3⟩ := ih (k + 1) hk
        rw [show ((1 :: wt') ++ [0]) = 1 :: (wt' ++ [0]) from rfl, countsFrom_cons,
          if_neg one_ne_zero,
          show ((k : ℤ) + 1) + 1 = ((k + 1 : ℕ) : ℤ) + 1 from by push_cast; ring]
        refine ⟨?_, ?_, ?_⟩
        · intro c hc
          rcases List.mem_cons.mp hc with rfl | hc
          · omega
          · exact ih1 c hc
        · intro c hc
          rw [dropLast_cons_ne _ _ (countsFrom_ne_nil _ _)] at hc
          rcases List.mem_cons.mp hc with rfl | hc
          · omega
          · exact ih2 c hc
        · rw [getLast?_cons_ne _ _ (countsFrom_ne_nil _ _)]
          exact ih3
      · by_cases h0 : op = 0
        · subst h0
          cases k with
          | zero => simp [heightAfter] at hk
          | succ k'' =>
              simp only [heightAfter] at hk
              obtain ⟨ih1, ih2, ih3⟩ := ih k'' hk
              rw [show ((0 :: wt') ++ [0]) = 0 :: (wt' ++ [0]) from rfl, countsFrom_cons,
                if_pos rfl,
                show (((k'' + 1 : ℕ) : ℤ) + 1) - 1 = ((k'' : ℕ) : ℤ) + 1 from by
                  push_cast; ring]
              refine ⟨?_, ?_, ?_⟩
              · intro c hc
                rcases List.mem_cons.mp hc with rfl | hc
                · omega
                · exact ih1 c hc
              · intro c hc
                rw [dropLast_cons_ne _ _ (countsFrom_ne_nil _ _)] at hc
                rcases List.mem_cons.mp hc with rfl | hc
                · omega
                · exact ih2 c hc
              · rw [getLast?_cons_ne _ _ (countsFrom_ne_nil _ _)]
                exact ih3
        · simp [heightAfter, h1, h0] at hk

lemma counts_tail_dyck_rev (wt : List ℕ) : ∀ (k : ℕ),
    (∀ x ∈ wt, x = 0 ∨ x = 1) →
    (∀ c ∈ (countsFrom ((k : ℤ) + 1) (wt ++ [0])).dropLast, 1 ≤ c) →
    (countsFrom ((k : ℤ) + 1) (wt ++ [0])).getLast? = some 0 →
    heightAfter k wt = some 0 := by
  induction wt with
  | nil =>
      intro k _ _ hlast
      rw [List.nil_append, countsFrom_cons, countsFrom_nil] at hlast
      simp only [List.getLast?_cons_cons] at hlast
      simp only [heightAfter, Option.some.injEq]
      simp at hlast
      omega
  | cons op wt' ih =>
      intro k hent hmid hlast
      by_cases h1 : op = 1
      · subst h1
        rw [show ((1 :: wt') ++ [0]) = 1 :: (wt' ++ [0]) from rfl, countsFrom_cons,
          if_neg one_ne_zero,
          show ((k : ℤ) + 1) + 1 = ((k + 1 : ℕ) : ℤ) + 1 from by
            push_cast; ring] at hmid hlast
        rw [dropLast_cons_ne _ _ (countsFrom_ne_nil _ _)] at hmid
        rw [getLast?_cons_ne _ _ (countsFrom_ne_nil _ _)] at hlast
        have hrec := ih (k + 1) (fun x hx => hent x (List.mem_cons_of_mem _ hx))
          (fun c hc => hmid c (List.mem_cons_of_mem _ hc)) hlast
        simpa [heightAfter] using hrec
      · by_cases h0 : op = 0
        · subst h0
          rw [show ((0 :: wt') ++ [0]) = 0 :: (wt' ++ [0]) from rfl, countsFrom_cons,
            if_pos rfl] at hmid hlast
          rw [dropLast_cons_ne _ _ (countsFrom_ne_nil _ _)] at hmid
          rw [getLast?_cons_ne _ _ (countsFrom_ne_nil _ _)] at hlast
          have hk1 : (1 : ℤ) ≤ (k : ℤ) + 1 - 1 :=
            hmid _ (List.mem_cons_of_mem _ (head_mem_dropLast _ _))
          obtain ⟨k'', rfl⟩ : ∃ k'', k = k'' + 1 := ⟨k - 1, by omega⟩
          rw [show (((k'' + 1 : ℕ) : ℤ) + 1) - 1 = ((k'' : ℤ) + 1) from by
            push_cast; ring] at hmid hlast
          have hrec := ih k'' (fun x hx => hent x (List.mem_cons_of_mem _ hx))
            (fun c hc => hmid c (List.mem_cons_of_mem _ hc)) hlast
          simpa [heightAfter] using hrec
        · rcases hent op (List.mem_cons_self _ _) with rfl | rfl
          · exact absurd rfl h0
          · exact absurd rfl h1

lemma validStrict_iff (A : List ℕ) :
    validStrict A ↔ ∃ w, isDyck w = true ∧ w ≠ [] ∧ A = w ++ [0] := by
  constructor
  · rintro ⟨⟨hent, hhead, hlast, _, hlast0⟩, hstrict⟩
    cases A with
    | nil => simp at hhead
    | cons op₀ rest =>
        simp only [List.head?_cons, Option.some.injEq] at hhead
        subst hhead
        cases rest with
        | nil => simp [List.getLast?] at hlast
        | cons r rs =>
            have hne : (r :: rs) ≠ [] := by simp
            have hlastv : (r :: rs).getLast hne = 0 := by
              rw [List.getLast?_cons_cons, List.getLast?_eq_getLast _ hne,
                Option.some.injEq] at hlast
              exact hlast
            have hdecomp : (r :: rs).dropLast ++ [0] = r :: rs := by
              rw [← hlastv]
              exact List.dropLast_append_getLast hne
            refine ⟨1 :: (r :: rs).dropLast, ?_, by simp, by rw [List.cons_append, hdecomp]⟩
            rw [isDyck, heightAfter_iff_dyckGo,
              show heightAfter 0 (1 :: (r :: rs).dropLast)
                = heightAfter 1 (r :: rs).dropLast from by simp [heightAfter]]
            apply counts_tail_dyck_rev
            · intro x hx
              apply hent
              apply List.mem_cons_of_mem
              rw [← hdecomp]
              exact List.mem_append_left _ hx
            · intro c hc
              apply hstrict
              simp only [specCounts, List.drop_succ_cons, List.drop_zero]
              rw [if_neg one_ne_zero]
              rw [show ((1 : ℕ) : ℤ) + 1 = 2 from by norm_num, hdecomp] at hc
              exact hc
            · rw [show ((1 : ℕ) : ℤ) + 1 = 2 from by norm_num, hdecomp]
              simp only [specCounts] at hlast0
              rw [if_neg one_ne_zero,
                getLast?_cons_ne _ _ (countsFrom_ne_nil _ _)] at hlast0
              exact hlast0
  · rintro ⟨w, hdw, hwne, rfl⟩
    cases w with
    | nil => exact absurd rfl hwne
    | cons op wt =>
        have hop : op = 1 := by
          rcases heightAfter_entries _ 0 0 ((heightAfter_iff_dyckGo _ 0).mp hdw) op
            (List.mem_cons_self _ _) with rfl | rfl
          · exfalso
            simp [isDyck, dyckGo] at hdw
          · rfl
        subst hop
        have hht : heightAfter 1 wt = some 0 := by
          have hd := (heightAfter_iff_dyckGo _ 0).mp hdw
          simpa [heightAfter] using hd
        obtain ⟨hp0, hp1, hp2⟩ := counts_tail_dyck wt 1 hht
        rw [show ((1 : ℕ) : ℤ) + 1 = 2 from by norm_num] at hp0 hp1 hp2
        have hwent := heightAfter_entries wt 1 0 hht
        have hA : (1 :: wt) ++ [0] = 1 :: (wt ++ [0]) := rfl
        rw [hA]
        have hsc : specCounts (1 :: (wt ++ [0])) = 0 :: countsFrom 2 (wt ++ [0]) := by
          simp only [specCounts]
          rw [if_neg one_ne_zero]
        refine ⟨⟨?_, by simp, ?_, ?_, ?_⟩, ?_⟩
        · intro x hx
          rcases List.mem_cons.mp hx with rfl | hx
          · exact Or.inr rfl
          · rcases List.mem_append.mp hx with hx | hx
            · exact hwent x hx
            · simp at hx
              exact Or.inl hx
        · rw [show (1 : ℕ) :: (wt ++ [0]) = (1 :: wt) ++ [0] from rfl]
          exact List.getLast?_concat _
        · intro c hc
          rw [hsc] at hc
          rcases List.mem_cons.mp hc with rfl | hc
          · omega
          · exact hp0 c hc
        · rw [hsc, getLast?_cons_ne _ _ (countsFrom_ne_nil _ _)]
          exact hp2
        · intro c hc
          rw [hsc] at hc
          simp only [List.drop_succ_cons, List.drop_zero] at hc
          exact hp1 c hc

lemma mem_allDyck_map (L : ℕ) (hL : 3 ≤ L) (A : List ℕ) :
    A ∈ (allDyck (L - 1)).map (fun y => y ++ [0]) ↔ (validStrict A ∧ A.length = L) := by
  rw [List.mem_map]
  constructor
  · rintro ⟨w, hw, rfl⟩
    unfold allDyck at hw
    rw [List.mem_filter, mem_allB] at hw
    obtain ⟨⟨hlen, _⟩, hdw⟩ := hw
    refine ⟨(validStrict_iff _).mpr ⟨w, hdw, ?_, rfl⟩, ?_⟩
    · intro hnil
      subst hnil
      simp at hlen
      omega
    · simp only [List.length_append, List.length_cons, List.length_nil]
      omega
  · rintro ⟨hv, hlen⟩
    obtain ⟨w, hdw, hwne, rfl⟩ := (validStrict_iff _).mp hv
    refine ⟨w, ?_, rfl⟩
    unfold allDyck
    rw [List.mem_filter, mem_allB]
    refine ⟨⟨?_, heightAfter_entries w 0 0 ((heightAfter_iff_dyckGo w 0).mp hdw)⟩, hdw⟩
    simp only [List.length_append, List.length_cons, List.length_nil] at hlen
    omega

lemma scaled_le (A v c₁ c₂ : ℚ) (h1 : c₁ * v ≤ A) (h5 : 1 ≤ A) (h0 : 0 ≤ c₂)
    (h12 : c₂ ≤ c₁) : c₂ * v ≤ A := by
  rcases le_or_lt 0 v with hv | hv
  · exact le_trans (mul_le_mul_of_nonneg_right h12 hv) h1
  · have : c₂ * v ≤ 0 := mul_nonpos_of_nonneg_of_nonpos h0 (le_of_lt hv)
    linarith

lemma slowdown_holds_mono (σ : Var → ℚ) (c₁ c₂ al : ℚ) (m i : ℕ)
    (h0 : 0 ≤ c₂) (h12 : c₂ ≤ c₁)
    (H : ∀ cst ∈ addSlowdownConstraints c₁ al m i, cst.holds σ) :
    ∀ cst ∈ addSlowdownConstraints c₂ al m i, cst.holds σ := by
  have h1 := H (.ge (av i 0) (.smul (c₁ * al) (av (i-1) 0))) (by
    simp [addSlowdownConstraints])
  have h2 := H (.ge (av i 0) (.smul c₁ (av (i-1) 1))) (by simp [addSlowdownConstraints])
  have h3 := H (.ge (av i 0) (.smul c₁ (bv (i-1) 0))) (by simp [addSlowdownConstraints])
  have h4 := H (.ge (av i 0) (.smul c₁ (bv (i-1) 1))) (by simp [addSlowdownConstraints])
  have h5 := H (.ge (av i 0) (.const 1)) (by simp [addSlowdownConstraints])
  simp only [Cstr.holds, Expr.eval, av, bv] at h1 h2 h3 h4 h5
  intro cst hc
  simp only [addSlowdownConstraints, List.mem_append, List.mem_cons,
    List.not_mem_nil, or_false] at hc
  rcases hc with ((h | h | h | h | h | h) | h) | (h | h)
  · subst h
    simp only [Cstr.holds, Expr.eval, av, bv]
    rw [mul_assoc]
    rw [mul_assoc] at h1
    exact scaled_le _ _ c₁ c₂ h1 h5 h0 h12
  · subst h
    simp only [Cstr.holds, Expr.eval, av, bv]
    exact scaled_le _ _ c₁ c₂ h2 h5 h0 h12
  · subst h
    simp only [Cstr.holds, Expr.eval, av, bv]
    exact scaled_le _ _ c₁ c₂ h3 h5 h0 h12
  · subst h
    simp only [Cstr.holds, Expr.eval, av, bv]
    exact scaled_le _ _ c₁ c₂ h4 h5 h0 h12
  · subst h
    simp only [Cstr.holds, Expr.eval, av, bv]
    exact h5
  · subst h
    exact H _ (by simp [addSlowdownConstraints])
  · refine H cst ?_
    simp only [addSlowdownConstraints, List.mem_append, List.mem_cons,
      List.not_mem_nil, or_false]
    exact Or.inl (Or.inr h)
  · subst h
    exact H _ (by simp [addSlowdownConstraints])
  · subst h
    exact H _ (by simp [addSlowdownConstraints])

/-- Claim C5: for a fixed annotation and alpha, feasibility of the built LP
is monotone decreasing in the exponent: if the instance at the larger
exponent is feasible then so is the instance at any smaller exponent at
least 1.  The same assignment satisfies the smaller instance: only the four
scaled slowdown bounds mention the exponent, and each is either relaxed by
the smaller factor (when the scaled quantity is nonnegative) or trivially
below the slowdown's own bound `a[i,0] >= 1` (when it is negative). -/
theorem feasible_mono_c (ann : List ℕ) (al c₁ c₂ : ℚ) (hc1 : 1 ≤ c₂) (hc2 : c₂ < c₁)
    (hf : Feasible ann c₁ al) : Feasible ann c₂ al := by
  obtain ⟨σ, hbounds, hcstr⟩ := hf
  refine ⟨σ, hbounds, ?_⟩
  intro cst hc
  unfold buildConstraints addAnnotationConstraints at hc hcstr
  rcases List.mem_append.mp hc with hini | hops
  · exact hcstr cst (List.mem_append_left _ hini)
  · obtain ⟨p, hp, hin⟩ := List.mem_flatMap.mp hops
    by_cases hop : p.2 = 0
    · rw [if_pos hop] at hin
      refine slowdown_holds_mono σ c₁ c₂ al (maxNumClauses ann) (p.1 + 2)
        (by linarith) (le_of_lt hc2) ?_ cst hin
      intro cst' hc'
      refine hcstr cst' (List.mem_append_right _ (List.mem_flatMap.mpr ⟨p, hp, ?_⟩))
      rw [if_pos hop]; exact hc'
    · rw [if_neg hop] at hin
      refine hcstr cst (List.mem_append_right _ (List.mem_flatMap.mpr ⟨p, hp, ?_⟩))
      rw [if_neg hop]; exact hin

lemma buildConstraints_ex :
    buildConstraints [1, 0, 1, 0] 2 1 =
      [.ge (av 0 0) (.const 1), .eq (bv 0 0) (.const 1),
       .ge (av 4 0) (.const 1), .eq (bv 4 0) (.const 1),
       .eq (av 0 1) (.const 0), .eq (bv 0 1) (.const 0),
       .eq (av 4 1) (.const 0), .eq (bv 4 1) (.const 0),
       .ge (av 0 0) (av 4 0),
       .eq (av 1 0) (.sub (av 0 0) (xv 1)), .eq (bv 1 0) (.const 1),
       .eq (av 1 1) (.const 0), .ge (bv 1 1) (xv 1), .ge (bv 1 1) (.const 1),
       .eq (av 1 2) (xv 1), .ge (bv 1 2) (.const 1), .ge (bv 1 2) (xv 1),
       .eq (av 1 3) (.const 0), .eq (bv 1 3) (.const 0),
       .ge (av 2 0) (.smul (2 * 1) (av 1 0)), .ge (av 2 0) (.smul 2 (av 1 1)),
       .ge (av 2 0) (.smul 2 (bv 1 0)), .ge (av 2 0) (.smul 2 (bv 1 1)),
       .ge (av 2 0) (.const 1), .eq (bv 2 0) (bv 1 1),
       .eq (av 2 1) (.const 0), .eq (bv 2 1) (.const 0),
       .ge (av 3 0) (.const 1), .ge (av 3 0) (.sub (av 2 0) (xv 3)),
       .ge (bv 3 0) (bv 2 0), .eq (av 3 1) (.const 0),
       .ge (bv 3 1) (xv 3), .ge (bv 3 1) (bv 2 0),
       .ge (av 3 2) (av 2 1), .ge (av 3 2) (xv 3), .ge (bv 3 2) (bv 2 1),
       .ge (av 4 0) (.smul (2 * 1) (av 3 0)), .ge (av 4 0) (.smul 2 (av 3 1)),
       .ge (av 4 0) (.smul 2 (bv 3 0)), .ge (av 4 0) (.smul 2 (bv 3 1)),
       .ge (av 4 0) (.const 1), .eq (bv 4 0) (bv 3 1),
       .eq (av 4 1) (.const 0), .eq (bv 4 1) (.const 0)] := rfl

/-- Claim C5 witness: the list [1,0,1,0] is feasible at exponent 2 (witnessed
by `sigmaEx`), and the theorem transports feasibility down to exponent 1. -/
theorem feasible_mono_c_example :
    (1 : ℚ) ≤ 1 ∧ (1 : ℚ) < 2 ∧ Feasible [1, 0, 1, 0] 2 1 ∧ Feasible [1, 0, 1, 0] 1 1 := by
  have hb : ∀ p ∈ buildVariables [1, 0, 1, 0],
      (p.2.all fun q => decide (q ≤ sigmaEx p.1)) = true := by decide
  have hcs : ∀ cst ∈ buildConstraints [1, 0, 1, 0] 2 1, Cstr.holds sigmaEx cst := by
    intro cst hc
    rw [buildConstraints_ex] at hc
    simp only [List.mem_cons, List.not_mem_nil, or_false] at hc
    rcases hc with rfl|rfl|rfl|rfl|rfl|rfl|rfl|rfl|rfl|rfl|rfl|rfl|rfl|rfl|rfl|rfl|rfl|
      rfl|rfl|rfl|rfl|rfl|rfl|rfl|rfl|rfl|rfl|rfl|rfl|rfl|rfl|rfl|rfl|rfl|rfl|rfl|rfl|
      rfl|rfl|rfl|rfl|rfl|rfl|rfl
    all_goals simp only [Cstr.holds, Expr.eval, av, bv, xv, sigmaEx]
    all_goals norm_num
  have hf : Feasible [1, 0, 1, 0] 2 1 := ⟨sigmaEx, hb, hcs⟩
  exact ⟨by norm_num, by norm_num, hf, feasible_mono_c [1, 0, 1, 0] 1 2 1
    (by norm_num) (by norm_num) hf⟩

lemma annGen_perm (L : ℕ) (hodd : L % 2 = 1) (hL3 : 3 ≤ L) :
    (annGen L).Perm ((allDyck (L - 1)).map (fun y => y ++ [0])) := by
  by_cases hL7 : 7 ≤ L
  · rw [annGen_eq L hodd hL7]
  · by_cases hL5 : L = 5
    · subst hL5
      rw [show annGen 5 = [[1, 1, 0, 0, 0], [1, 0, 1, 0, 0]] from rfl,
        show (allDyck (5 - 1)).map (fun y => y ++ [0])
          = [[1, 0, 1, 0, 0], [1, 1, 0, 0, 0]] from by decide]
      exact List.Perm.swap _ _ _
    · have hL3' : L = 3 := by omega
      subst hL3'
      rw [show annGen 3 = [[1, 0, 0]] from rfl,
        show (allDyck (3 - 1)).map (fun y => y ++ [0]) = [[1, 0, 0]] from by decide]

/-- Claim C2 (corrected).  For every odd `L ≥ 3` the enumerator yields exactly
`catalan ((L-1)/2)` annotations with no repetition, it yields an annotation
exactly once exactly when the annotation is valid in the strict sense the code
realises (the running count stays at least 1 strictly between the opening and
the final step) and has length `L`, every yielded annotation also satisfies the
claim's weaker stated invariants (binary alphabet, begins with a speedup, ends
with a slowdown, running count nonnegative throughout and zero at the end), and
at `L = 5` the yield is exactly `[1,1,0,0,0]` then `[1,0,1,0,0]`.  The claim's
literal reading -- every annotation satisfying its nonnegative-count invariant
appears -- is refuted by `annGen_weakValid_missed`. -/
theorem annGen_catalan_amended (L : ℕ) (hodd : L % 2 = 1) (hL3 : 3 ≤ L) :
    (annGen L).length = catalan ((L - 1) / 2)
    ∧ (annGen L).Nodup
    ∧ (∀ A, A ∈ annGen L ↔ (validStrict A ∧ A.length = L))
    ∧ (∀ A ∈ annGen L, specValidWeak A ∧ A.head? = some 1 ∧ A.getLast? = some 0
        ∧ A.length = L)
    ∧ annGen 5 = [[1, 1, 0, 0, 0], [1, 0, 1, 0, 0]] := by
  have hperm := annGen_perm L hodd hL3
  have hmem : ∀ A, A ∈ annGen L ↔ (validStrict A ∧ A.length = L) := by
    intro A
    rw [hperm.mem_iff]
    exact mem_allDyck_map L hL3 A
  refine ⟨?_, ?_, hmem, ?_, rfl⟩
  · rw [hperm.length_eq, List.length_map,
      show (allDyck (L - 1)).length = (allDyck (2 * ((L - 1) / 2))).length from by
        rw [show 2 * ((L - 1) / 2) = L - 1 from by omega]]
    exact allDyck_length_catalan _
  · rw [hperm.nodup_iff]
    refine List.Nodup.map (List.append_left_injective [0]) ?_
    unfold allDyck
    exact (allB_nodup _).filter _
  · intro A hA
    obtain ⟨hv, hlen⟩ := (hmem A).mp hA
    exact ⟨hv.1, hv.1.2.1, hv.1.2.2.1, hlen⟩

/-- Claim C2 witness: at `L = 7` the enumerator yields `catalan 3 = 5`
annotations, and the membership characterisation applies to a concrete
annotation. -/
theorem annGen_catalan_at7 :
    (annGen 7).length = catalan ((7 - 1) / 2)
      ∧ ([1, 1, 0, 1, 0, 0, 0] ∈ annGen 7
          ↔ (validStrict [1, 1, 0, 1, 0, 0, 0]
              ∧ ([1, 1, 0, 1, 0, 0, 0] : List ℕ).length = 7)) := by
  have h := annGen_catalan_amended 7 (by decide) (by decide)
  exact ⟨h.1, h.2.2.1 [1, 1, 0, 1, 0, 0, 0]⟩

/-- Claim C2 counterexample to the literal claim: `[1,0,0,1,0]` satisfies every
invariant the claim states for length 5 (binary alphabet, begins with a
speedup, ends with a slowdown, running count nonnegative throughout, zero at
the end), yet the enumerator never yields it: the speedup at line 3 acts on a
line with no quantifiers, which the code's generator (and the paper's proof
system) excludes. -/
theorem annGen_weakValid_missed :
    specValidWeak [1, 0, 0, 1, 0] ∧ ([1, 0, 0, 1, 0] : List ℕ).length = 5
      ∧ [1, 0, 0, 1, 0] ∉ annGen 5 := by decide

end AltLB
